import Mathlib

/-!
Verification of the lattice-crypto-learning repository (Kyber ML-KEM and the
shared lattice-core substrate) against its natural-language specification.

The Rust source is shallowly embedded: machine integers become `Int` with the
32-bit truncation of an `as i32` cast made explicit (`wrap32`), `Vec<T>`
becomes `List`, and the external collaborators (the `OsRng` entropy source,
the SHA3/SHAKE primitives of the `sha3` crate and the ChaCha20 stream of
`rand_chacha`) are passed as explicit function parameters.
-/

namespace LatticeCrypto

/-- Two to the 31st, the i32 sign boundary. -/
def i32Half : Int := 2147483648

/-- Two to the 32nd. -/
def i32Size : Int := 4294967296

/-- Semantics of the Rust cast `as i32` applied to a wider integer: wrap the
value into the interval [-2^31, 2^31). -/
def wrap32 (x : Int) : Int := (x + i32Half) % i32Size - i32Half

/-- Embeds `ZqElement` from lattice-core/src/zq.rs: a representative together
with its modulus. -/
structure ZqElement where
  value : Int
  q : Int
  deriving Repr, DecidableEq

namespace ZqElement

/-- Embeds `ZqElement::normalize`: Rust `%` on i32 is the truncated remainder
(`Int.tmod`), followed by a conditional correction into [0, q). -/
def normalize (value q : Int) : Int :=
  let r := Int.tmod value q
  if r < 0 then r + q else r

/-- Embeds `ZqElement::new`. -/
def new (value q : Int) : ZqElement := ⟨normalize value q, q⟩

/-- Embeds `impl Add for ZqElement` (the `+` on i32 values cannot wrap for the
in-range representatives the library produces, q being far below 2^30 in every
parameter set; the sum of two representatives stays in i32 range). -/
def add (a b : ZqElement) : ZqElement := new (a.value + b.value) a.q

/-- Embeds `impl Sub for ZqElement`. -/
def sub (a b : ZqElement) : ZqElement := new (a.value - b.value) a.q

/-- Embeds `impl Mul for ZqElement`: the source widens both representatives to
i64, multiplies, and then casts the full product back with `as i32` BEFORE
`ZqElement::new` reduces it, so the cast wraps modulo 2^32. -/
def mul (a b : ZqElement) : ZqElement := new (wrap32 (a.value * b.value)) a.q

/-- Embeds `impl Neg for ZqElement`. -/
def neg (a : ZqElement) : ZqElement := new (-a.value) a.q

end ZqElement

/-- Embeds `PolyModulusInfo` from lattice-core/src/params.rs. -/
structure PolyModulusInfo where
  degree : Nat
  q : Int
  is_ntt_form : Bool
  deriving Repr, DecidableEq

/-- Embeds `Polynomial` from lattice-core/src/polynomial.rs. -/
structure Polynomial where
  coeffs : List ZqElement
  modulus_info : PolyModulusInfo
  deriving Repr, DecidableEq

/-- Default element used to embed Rust's panicking index as a total lookup; it
is never reached on well-formed inputs. -/
def zq0 (q : Int) : ZqElement := ZqElement.new 0 q

namespace Polynomial

/-- Embeds `Polynomial::new`: pads a short coefficient list with zeros up to
the declared degree (the source asserts the list is not longer than it). -/
def new (coeffs : List ZqElement) (modulus_info : PolyModulusInfo) : Polynomial :=
  let n := modulus_info.degree
  let q := modulus_info.q
  ⟨coeffs ++ List.replicate (n - coeffs.length) (ZqElement.new 0 q), modulus_info⟩

/-- Embeds `Polynomial::zero`. -/
def zero (modulus_info : PolyModulusInfo) : Polynomial :=
  new (List.replicate modulus_info.degree (ZqElement.new 0 modulus_info.q)) modulus_info

/-- Embeds `Polynomial::schoolbook_mul`: schoolbook products accumulated at
position (i+j) mod n, with the product subtracted twice more on wraparound to
realize reduction modulo X^n + 1. -/
def schoolbook_mul (a b : Polynomial) : Polynomial :=
  let n := a.modulus_info.degree
  let q := a.modulus_info.q
  let result := (List.range n).foldl (fun res i =>
    (List.range n).foldl (fun res j =>
      let product := ZqElement.mul (a.coeffs.getD i (zq0 q)) (b.coeffs.getD j (zq0 q))
      let idx := (i + j) % n
      let res := res.set idx (ZqElement.add (res.getD idx (zq0 q)) product)
      if n ≤ i + j then
        res.set idx (ZqElement.sub (ZqElement.sub (res.getD idx (zq0 q)) product) product)
      else res) res)
    (List.replicate n (ZqElement.new 0 q))
  new result a.modulus_info

/-- Embeds `Polynomial::to_bytes`: each coefficient is written little-endian
into ceil(coeff_bits/8) bytes (the `as u32` cast of a well-formed nonnegative
representative is value-preserving, embedded via `Int.toNat`). -/
def to_bytes (p : Polynomial) (coeff_bits : Nat) : List Nat :=
  let coeff_bytes := (coeff_bits + 7) / 8
  p.coeffs.flatMap (fun c =>
    (List.range coeff_bytes).map (fun j => (c.value.toNat >>> (8 * j)) &&& 255))

/-- Embeds `Polynomial::from_bytes`: returns the zero polynomial when fewer
than n·ceil(coeff_bits/8) bytes are supplied, otherwise reads little-endian
coefficients and masks each to coeff_bits bits. -/
def from_bytes (bytes : List Nat) (modulus_info : PolyModulusInfo) (coeff_bits : Nat) :
    Polynomial :=
  let n := modulus_info.degree
  let q := modulus_info.q
  let coeff_bytes := (coeff_bits + 7) / 8
  if bytes.length < n * coeff_bytes then zero modulus_info
  else
    let coeffs := (List.range n).map (fun i =>
      let offset := i * coeff_bytes
      let coeff_val := (List.range coeff_bytes).foldl (fun v j =>
        if offset + j < bytes.length then v ||| (bytes.getD (offset + j) 0 <<< (8 * j))
        else v) 0
      let mask := (1 <<< coeff_bits) - 1
      ZqElement.new (Int.ofNat (coeff_val &&& mask)) q)
    new coeffs modulus_info

/-- Embeds `Polynomial::compress`: per-coefficient rounding to pbits bits; the
final `as i32` cast of the rounded i64 value is `wrap32`, and the modulus
descriptor becomes 2^pbits. -/
def compress (p : Polynomial) (pbits : Nat) : Polynomial :=
  let q := p.modulus_info.q
  let mod_size : Int := 2 ^ pbits
  let coeffs := p.coeffs.map (fun c =>
    let x := c.value
    let compressed := wrap32 (Int.tdiv (mod_size * x + (q / 2)) q)
    ZqElement.new compressed mod_size)
  ⟨coeffs, { p.modulus_info with q := mod_size }⟩

/-- Embeds `Polynomial::decompress`: per-coefficient scaling back up to the
target modulus, reading the stored modulus as the source range 2^d. -/
def decompress (p : Polynomial) (q : Int) : Polynomial :=
  let p_val := p.modulus_info.q
  let coeffs := p.coeffs.map (fun c =>
    let x := c.value
    let decompressed := wrap32 (Int.tdiv (q * x + (p_val / 2)) p_val)
    ZqElement.new decompressed q)
  ⟨coeffs, { p.modulus_info with q := q }⟩

/-- Embeds `Polynomial::infinity_norm`: maximum absolute centered
representative across the coefficients. -/
def infinity_norm (p : Polynomial) : Int :=
  let q := p.modulus_info.q
  let q_half := Int.tdiv q 2
  p.coeffs.foldl (fun max_norm c =>
    let val := c.value
    let centered_val := if q_half < val then val - q else val
    let abs_val := |centered_val|
    if max_norm < abs_val then abs_val else max_norm) 0

/-- Embeds `impl Add for Polynomial` (coefficient-wise; the source walks the
indices of self, which equals a zip on well-formed operands of equal degree). -/
def add (a b : Polynomial) : Polynomial :=
  ⟨List.zipWith ZqElement.add a.coeffs b.coeffs, a.modulus_info⟩

/-- Embeds `impl Sub for Polynomial`. -/
def sub (a b : Polynomial) : Polynomial :=
  ⟨List.zipWith ZqElement.sub a.coeffs b.coeffs, a.modulus_info⟩

end Polynomial

/-- Absolute value of the truncated remainder is below the absolute divisor
(helper for the termination of the extended Euclid loop below). -/
theorem natAbs_tmod_lt (a : Int) {b : Int} (hb : b ≠ 0) :
    (Int.tmod a b).natAbs < b.natAbs := by
  have hneg : ∀ w c : Int, Int.tmod (-w) c = -(Int.tmod w c) := by
    intro w c
    rw [Int.tmod_def, Int.tmod_def, Int.neg_tdiv]
    ring
  have key : ∀ (x : Int) {c : Int}, 0 < c → (Int.tmod x c).natAbs < c.natAbs := by
    intro x c hc
    rcases le_or_lt 0 x with hx | hx
    · have h1 := Int.tmod_nonneg c hx
      have h2 := Int.tmod_lt_of_pos x hc
      omega
    · have h1 : Int.tmod x c = -(Int.tmod (-x) c) := by
        have := hneg (-x) c
        simp only [neg_neg] at this
        omega
      have h2 := Int.tmod_nonneg c (a := -x) (by omega)
      have h3 := Int.tmod_lt_of_pos (-x) hc
      omega
  rcases lt_or_gt_of_ne hb with h | h
  · have : Int.tmod a b = Int.tmod a (-b) := by rw [Int.tmod_neg]
    rw [this]
    have := key a (c := -b) (by omega)
    omega
  · exact key a h

/-- Embeds the loop of `mod_inverse` from lattice-core/src/ntt.rs (the
coefficients `t`, `old_t` of the source are dead code and omitted); Rust `/`
and the derived remainder are truncated division. The structural fuel makes
the recursion kernel-reducible; `mod_inverse` supplies fuel exceeding the
iteration count, so the zero-fuel arm is unreachable. -/
def egcd_loop : Nat → Int → Int → Int → Int → Int × Int
  | 0, old_s, _, old_r, _ => (old_s, old_r)
  | fuel + 1, old_s, s, old_r, r =>
    if r = 0 then (old_s, old_r)
    else
      let quotient := Int.tdiv old_r r
      egcd_loop fuel s (old_s - quotient * s) r (old_r - quotient * r)

/-- Embeds `mod_inverse` from lattice-core/src/ntt.rs: extended Euclid with a
final shift of a negative coefficient into [0, m). After one iteration the
remainder has absolute value below |m| and it strictly decreases, so
|m| + 2 iterations always reach the r = 0 exit. -/
def mod_inverse (a m : Int) : Int :=
  let p := egcd_loop (m.natAbs + 2) 1 0 a m
  if p.1 < 0 then p.1 + m else p.1

/-- Embeds the loop of `mod_pow` from lattice-core/src/ntt.rs; each i64
product is cast back with `as i32` (hence `wrap32`) before the truncated `%`.
The structural fuel (the exponent itself, which bounds the number of
halvings) makes the recursion kernel-reducible. -/
def mod_pow_loop : Nat → Int → Int → Nat → Int → Int
  | 0, result, _, _, _ => result
  | fuel + 1, result, base, exp, modulus =>
    if exp = 0 then result
    else
      let result := if exp % 2 = 1 then Int.tmod (wrap32 (result * base)) modulus else result
      mod_pow_loop fuel result (Int.tmod (wrap32 (base * base)) modulus) (exp / 2) modulus

/-- Embeds `mod_pow` from lattice-core/src/ntt.rs. -/
def mod_pow (base : Int) (exponent : Nat) (modulus : Int) : Int :=
  mod_pow_loop (exponent + 1) 1 (Int.tmod base modulus) exponent modulus

/-- Kernel-reducible base-2 logarithm (fuel-based structural recursion); for
the asserted power-of-two sizes it equals `n.trailing_zeros()` of the source. -/
def log2_fuel : Nat → Nat → Nat
  | 0, _ => 0
  | fuel + 1, n => if 2 ≤ n then log2_fuel fuel (n / 2) + 1 else 0

/-- Base-2 logarithm used for the stage counts of the NTT butterflies. -/
def nat_log2 (n : Nat) : Nat := log2_fuel n n

/-- Embeds `bit_reverse` from lattice-core/src/ntt.rs. -/
def bit_reverse (index : Nat) (bits : Nat) : Nat :=
  (List.range bits).foldl
    (fun reversed i => reversed ||| (((index >>> i) &&& 1) <<< (bits - 1 - i))) 0

/-- Embeds `precompute_roots` from lattice-core/src/ntt.rs; for the asserted
power-of-two n, `n.trailing_zeros()` is the base-2 logarithm. -/
def precompute_roots (psi : Int) (n : Nat) (q : Int) : List Int :=
  let log_n := nat_log2 n
  (List.range n).map (fun i =>
    let j := bit_reverse i log_n
    let power := (j * n / 2) % n
    mod_pow psi power q)

/-- Embeds `NTTParams` from lattice-core/src/ntt.rs. -/
structure NTTParams where
  q : Int
  n : Nat
  psi : Int
  n_inv : Int
  roots_of_unity : List Int
  inv_roots_of_unity : List Int
  barrett_factor : Int
  barrett_shift : Nat
  deriving Repr, DecidableEq

/-- Embeds `NTTParams::new` (the source asserts n is a power of two). -/
def NTTParams.new (q : Int) (n : Nat) (psi : Int) : NTTParams :=
  { q := q, n := n, psi := psi,
    n_inv := mod_inverse (Int.ofNat n) q,
    roots_of_unity := precompute_roots psi n q,
    inv_roots_of_unity := precompute_roots (mod_inverse psi q) n q,
    barrett_factor := Int.tdiv 4294967296 q,
    barrett_shift := 32 }

/-- Gather form of the in-place bit-reversal swap loop shared by both
butterflies: position i receives the element at the bit-reversed index (the
swap loop realizes exactly this permutation because `bit_reverse` is an
involution). -/
def bit_reverse_permute (c : List ZqElement) (log_n : Nat) : List ZqElement :=
  (List.range c.length).map (fun i => c.getD (bit_reverse i log_n) (zq0 0))

/-- Gather form of one Cooley–Tukey stage of `butterfly_ntt`: each in-place
iteration writes the pair (j+i, j+i+len/2) reading only that pair, so the
final array is described pointwise. -/
def ntt_stage (roots : List Int) (q : Int) (len : Nat) (c : List ZqElement) :
    List ZqElement :=
  let half := len / 2
  (List.range c.length).map (fun idx =>
    let r := idx % len
    if r < half then
      let even := c.getD idx (zq0 0)
      let odd := c.getD (idx + half) (zq0 0)
      let factor := ZqElement.new (roots.getD (half + r) 0) q
      ZqElement.add even (ZqElement.mul odd factor)
    else
      let even := c.getD (idx - half) (zq0 0)
      let odd := c.getD idx (zq0 0)
      let factor := ZqElement.new (roots.getD (half + (r - half)) 0) q
      ZqElement.sub even (ZqElement.mul odd factor))

/-- Embeds `butterfly_ntt` from lattice-core/src/ntt.rs: bit-reversal
permutation followed by stages of length 2, 4, …, n. -/
def butterfly_ntt (c : List ZqElement) (params : NTTParams) : List ZqElement :=
  let log_n := nat_log2 params.n
  let c := bit_reverse_permute c log_n
  (List.range log_n).foldl
    (fun c s => ntt_stage params.roots_of_unity params.q (2 ^ (s + 1)) c) c

/-- Gather form of one Gentleman–Sande stage of `butterfly_intt`. -/
def intt_stage (inv_roots : List Int) (q : Int) (len : Nat) (c : List ZqElement) :
    List ZqElement :=
  let half := len / 2
  (List.range c.length).map (fun idx =>
    let r := idx % len
    if r < half then
      ZqElement.add (c.getD idx (zq0 0)) (c.getD (idx + half) (zq0 0))
    else
      let diff := ZqElement.sub (c.getD (idx - half) (zq0 0)) (c.getD idx (zq0 0))
      let factor := ZqElement.new (inv_roots.getD (half + (r - half)) 0) q
      ZqElement.mul diff factor)

/-- Embeds `butterfly_intt` from lattice-core/src/ntt.rs: stages of length n
down to 2, then the bit-reversal permutation, then scaling by n⁻¹. -/
def butterfly_intt (c : List ZqElement) (params : NTTParams) : List ZqElement :=
  let log_n := nat_log2 params.n
  let c := (List.range log_n).foldl
    (fun c s => intt_stage params.inv_roots_of_unity params.q (2 ^ (log_n - s)) c) c
  let c := bit_reverse_permute c log_n
  let n_inv := ZqElement.new params.n_inv params.q
  c.map (fun x => ZqElement.mul x n_inv)

/-- Embeds `ntt_forward` from lattice-core/src/ntt.rs. -/
def ntt_forward (poly : Polynomial) (params : NTTParams) : Polynomial :=
  ⟨butterfly_ntt poly.coeffs params,
   { degree := params.n, q := params.q, is_ntt_form := true }⟩

/-- Embeds `ntt_inverse` from lattice-core/src/ntt.rs (the source asserts the
operand is tagged as NTT form). -/
def ntt_inverse (poly : Polynomial) (params : NTTParams) : Polynomial :=
  ⟨butterfly_intt poly.coeffs params,
   { degree := params.n, q := params.q, is_ntt_form := false }⟩

/-- Embeds `ntt_pointwise_mul` from lattice-core/src/ntt.rs. -/
def ntt_pointwise_mul (p1 p2 : Polynomial) : Polynomial :=
  ⟨List.zipWith ZqElement.mul p1.coeffs p2.coeffs,
   { degree := p1.modulus_info.degree, q := p1.modulus_info.q, is_ntt_form := true }⟩

/-- Embeds `ntt_polynomial_mul` from lattice-core/src/ntt.rs. -/
def ntt_polynomial_mul (p1 p2 : Polynomial) (params : NTTParams) : Polynomial :=
  let ntt1 := if p1.modulus_info.is_ntt_form then p1 else ntt_forward p1 params
  let ntt2 := if p2.modulus_info.is_ntt_form then p2 else ntt_forward p2 params
  ntt_inverse (ntt_pointwise_mul ntt1 ntt2) params

/-- Embeds `PolyVector` from lattice-core/src/vector_matrix.rs. -/
structure PolyVector where
  entries : List Polynomial
  modulus_info : PolyModulusInfo
  deriving Repr, DecidableEq

/-- Embeds `PolyMatrix` from lattice-core/src/vector_matrix.rs. -/
structure PolyMatrix where
  rows : List PolyVector
  modulus_info : PolyModulusInfo
  n_rows : Nat
  n_cols : Nat
  deriving Repr, DecidableEq

/-- Embeds `PolyVector::inner_product`: with NTT parameters supplied, each
pairwise product is taken pointwise in the NTT domain (transforming first when
the operands are not NTT-tagged) and inverted, then accumulated; otherwise the
schoolbook path is taken. -/
def PolyVector.inner_product (a b : PolyVector) (ntt_params : Option NTTParams) :
    Polynomial :=
  let d := Polynomial.zero a.modulus_info
  if a.entries.length = 0 then Polynomial.zero a.modulus_info
  else
    match ntt_params with
    | some params =>
      let use_ntt := !(a.entries.getD 0 d).modulus_info.is_ntt_form
      (List.range a.entries.length).foldl (fun result i =>
        let product :=
          if use_ntt then
            ntt_inverse (ntt_pointwise_mul (ntt_forward (a.entries.getD i d) params)
              (ntt_forward (b.entries.getD i d) params)) params
          else
            ntt_inverse (ntt_pointwise_mul (a.entries.getD i d) (b.entries.getD i d)) params
        Polynomial.add result product) (Polynomial.zero a.modulus_info)
    | none =>
      (List.range a.entries.length).foldl (fun result i =>
        Polynomial.add result
          (Polynomial.schoolbook_mul (a.entries.getD i d) (b.entries.getD i d)))
        (Polynomial.zero a.modulus_info)

/-- Embeds `PolyMatrix::mul_vec`: one inner product per row. -/
def PolyMatrix.mul_vec (m : PolyMatrix) (vec : PolyVector) (ntt_params : Option NTTParams) :
    PolyVector :=
  let dv := PolyVector.mk [] m.modulus_info
  ⟨(List.range m.n_rows).map (fun i => (m.rows.getD i dv).inner_product vec ntt_params),
   m.modulus_info⟩

/-- The external collaborators of the core, passed as explicit parameters: the
SHA3/SHAKE primitives of the `sha3` crate and the ChaCha20 pseudorandom stream
of `rand_chacha` (modelled as deterministic oracles of the 32-byte seed; the
two draw shapes used by the source, `gen::<bool>` and `gen_range(0..3)`, are
never interleaved within one reseeding, so they are two indexed oracles). -/
structure HashPrims where
  shake128 : List Nat → Nat → List Nat
  shake256 : List Nat → Nat → List Nat
  sha3_256 : List Nat → List Nat
  chacha_bool : List Nat → Nat → Bool
  chacha_range3 : List Nat → Nat → Nat

/-- Embeds `prf` from lattice-core/src/hashing.rs: SHAKE-256 over the seed
followed by the 16-bit nonce in little-endian order. -/
def prf (H : HashPrims) (seed : List Nat) (nonce : Nat) (len : Nat) : List Nat :=
  H.shake256 (seed ++ [nonce % 256, (nonce / 256) % 256]) len

/-- Embeds `hash_g` from lattice-core/src/hashing.rs: 64 bytes of SHAKE-256
over m ∥ h_pk, split after 32 bytes into (K, r_coins). -/
def hash_g (H : HashPrims) (m h_pk : List Nat) : List Nat × List Nat :=
  let hash := H.shake256 (m ++ h_pk) 64
  (hash.take 32, hash.drop 32)

/-- Embeds `expand_poly` from lattice-core/src/sampling.rs: SHAKE-128 over
ρ ∥ i ∥ j read two bytes per coefficient, interpreted as a little-endian u16
and reduced with the (truncated) Rust `%`. -/
def expand_poly (H : HashPrims) (rho : List Nat) (i j : Nat) (mi : PolyModulusInfo) :
    Polynomial :=
  let n := mi.degree
  let q := mi.q
  let stream := H.shake128 (rho ++ [i, j]) (2 * n)
  let coeffs := (List.range n).map (fun t =>
    let value := Int.tmod (Int.ofNat (stream.getD (2 * t) 0 + 256 * stream.getD (2 * t + 1) 0)) q
    ZqElement.new value q)
  Polynomial.new coeffs mi

/-- Embeds `expand_matrix` from lattice-core/src/sampling.rs. -/
def expand_matrix (H : HashPrims) (rho : List Nat) (k l : Nat) (mi : PolyModulusInfo) :
    List (List Polynomial) :=
  (List.range k).map (fun i => (List.range l).map (fun j => expand_poly H rho i j mi))

/-- Embeds `sample_poly_from_seed` from lattice-core/src/sampling.rs: the PRF
output's first 32 bytes (zero-padded) reseed the ChaCha20 stream, which then
drives ternary sampling for η = 1 and centered-binomial sampling otherwise
(coefficient t uses draws 2ηt, …, 2ηt+2η−1, a-bits on even draws). -/
def sample_poly_from_seed (H : HashPrims) (seed : List Nat) (mi : PolyModulusInfo)
    (eta : Nat) : Polynomial :=
  let n := mi.degree
  let q := mi.q
  let bytes_needed := n * ((eta + 7) / 8)
  let random_bytes := prf H seed 0 bytes_needed
  let seed_array := (List.range 32).map (fun i =>
    if i < random_bytes.length then random_bytes.getD i 0 else 0)
  let coeffs :=
    if eta = 1 then
      (List.range n).map (fun t =>
        let r := H.chacha_range3 seed_array t
        let value : Int := if r = 0 then -1 else if r = 1 then 0 else 1
        ZqElement.new value q)
    else
      (List.range n).map (fun t =>
        let a_bits : Int :=
          ((List.range eta).filter (fun i => H.chacha_bool seed_array (2 * eta * t + 2 * i))).length
        let b_bits : Int :=
          ((List.range eta).filter (fun i => H.chacha_bool seed_array (2 * eta * t + 2 * i + 1))).length
        ZqElement.new (a_bits - b_bits) q)
  Polynomial.new coeffs mi

/-- Embeds `sample_challenge` from lattice-core/src/sampling.rs with the
generator modelled as two streams: `rngRange i` is the i-th result of
`rng.gen_range(0..n-i)` and `rngBool i` the i-th result of `rng.gen::<bool>`.
A partial Fisher–Yates shuffle of [0..n) picks τ positions, which are then
set to ±1. -/
def sample_challenge (tau : Nat) (mi : PolyModulusInfo)
    (rngRange : Nat → Nat) (rngBool : Nat → Bool) : Polynomial :=
  let n := mi.degree
  let q := mi.q
  let positions := (List.range tau).foldl (fun pos i =>
    let j := i + rngRange i
    let pi := pos.getD i 0
    let pj := pos.getD j 0
    (pos.set i pj).set j pi) (List.range n)
  let values := (List.range tau).foldl (fun vals i =>
    vals.set (positions.getD i 0) (if rngBool i then (1 : Int) else -1))
    (List.replicate n (0 : Int))
  Polynomial.new (values.map (fun v => ZqElement.new v q)) mi

/-- Embeds `SecurityLevel` from kyber-ml-kem/src/params.rs. -/
inductive SecurityLevel where
  | Kyber512
  | Kyber768
  | Kyber1024
  deriving Repr, DecidableEq

/-- Embeds `SecurityLevel::k`. -/
def SecurityLevel.k : SecurityLevel → Nat
  | .Kyber512 => 2
  | .Kyber768 => 3
  | .Kyber1024 => 4

/-- Embeds `SecurityLevel::eta1`. -/
def SecurityLevel.eta1 : SecurityLevel → Nat
  | .Kyber512 => 3
  | .Kyber768 => 2
  | .Kyber1024 => 2

/-- Embeds `SecurityLevel::eta2`. -/
def SecurityLevel.eta2 : SecurityLevel → Nat
  | .Kyber512 => 2
  | .Kyber768 => 2
  | .Kyber1024 => 2

namespace Kyber

/-- Kyber modulus, lattice-core/src/params.rs. -/
def Q : Int := 3329

/-- Kyber ring degree. -/
def N : Nat := 256

/-- Compression width of the ciphertext u component. -/
def DU : Nat := 10

/-- Compression width of the ciphertext v component. -/
def DV : Nat := 4

/-- Embeds `poly_modulus` from kyber-ml-kem/src/params.rs. -/
def poly_modulus : PolyModulusInfo := ⟨N, Q, false⟩

/-- Embeds `poly_modulus_ntt`. -/
def poly_modulus_ntt : PolyModulusInfo := ⟨N, Q, true⟩

/-- Embeds `get_ntt_params` from kyber-ml-kem/src/cpa.rs: ψ = 17. -/
def get_ntt_params : NTTParams := NTTParams.new Q N 17

/-- Embeds `sizes::public_key_bytes`. -/
def public_key_bytes (level : SecurityLevel) : Nat := 32 + level.k * N * 12 / 8

/-- Embeds `sizes::secret_key_cpa_bytes`. -/
def secret_key_cpa_bytes (level : SecurityLevel) : Nat := level.k * N * 12 / 8

/-- Embeds `sizes::secret_key_kem_bytes`. -/
def secret_key_kem_bytes (level : SecurityLevel) : Nat :=
  secret_key_cpa_bytes level + public_key_bytes level + 32 + 32

/-- Embeds `sizes::ciphertext_bytes`. -/
def ciphertext_bytes (level : SecurityLevel) : Nat :=
  level.k * N * DU / 8 + N * DV / 8

/-- Embeds the CPA `PublicKey` from kyber-ml-kem/src/cpa.rs. -/
structure PublicKey where
  rho : List Nat
  t_hat : PolyVector
  security_level : SecurityLevel

/-- Embeds the CPA `SecretKey`. -/
structure SecretKey where
  s_hat : PolyVector
  security_level : SecurityLevel

/-- Embeds `Ciphertext`. -/
structure Ciphertext where
  u : PolyVector
  v : Polynomial
  deriving Repr, DecidableEq

/-- Embeds `decode_message` from kyber-ml-kem/src/cpa.rs: bit b of the 32-byte
message becomes the coefficient b·(q/2), for the first min(256, n) slots. -/
def decode_message (msg : List Nat) (mi : PolyModulusInfo) : Polynomial :=
  let n := mi.degree
  let q := mi.q
  let q_half := Int.tdiv q 2
  let coeffs := (List.range 32).flatMap (fun i =>
    (List.range 8).filterMap (fun j =>
      if i * 8 + j < n then
        let bit := (msg.getD i 0 >>> j) &&& 1
        some (ZqElement.new (if bit = 1 then q_half else 0) q)
      else none))
  Polynomial.new coeffs mi

/-- Embeds `encode_message` from kyber-ml-kem/src/cpa.rs: bit 1 exactly when a
representative lies strictly between q/4 and 3q/4 (the loop stops once 32
output bytes are filled). -/
def encode_message (poly : Polynomial) : List Nat :=
  let q := poly.modulus_info.q
  let q_quarter := Int.tdiv q 4
  let three_q_quarter := Int.tdiv (3 * q) 4
  (List.range (min poly.coeffs.length 256)).foldl (fun msg i =>
    let coeff := (poly.coeffs.getD i (zq0 q)).value
    let bit : Nat := if q_quarter < coeff ∧ coeff < three_q_quarter then 1 else 0
    msg.set (i / 8) (msg.getD (i / 8) 0 ||| (bit <<< (i % 8))))
    (List.replicate 32 0)

/-- Embeds `compress_poly` from kyber-ml-kem/src/cpa.rs (the explicit `%
mod_size` before the `as i32` cast distinguishes it from
`Polynomial::compress`). -/
def compress_poly (poly : Polynomial) (bits : Nat) : Polynomial :=
  let q := poly.modulus_info.q
  let degree := poly.modulus_info.degree
  let mod_size : Int := 2 ^ bits
  let coeffs := poly.coeffs.map (fun c =>
    let x := c.value
    let compressed := wrap32 (Int.tmod (Int.tdiv (mod_size * x + (q / 2)) q) mod_size)
    ZqElement.new compressed mod_size)
  Polynomial.new coeffs ⟨degree, mod_size, poly.modulus_info.is_ntt_form⟩

/-- Embeds `decompress_poly` from kyber-ml-kem/src/cpa.rs. -/
def decompress_poly (poly : Polynomial) (q_target : Int) : Polynomial :=
  let p := poly.modulus_info.q
  let degree := poly.modulus_info.degree
  let coeffs := poly.coeffs.map (fun c =>
    let x := c.value
    let decompressed := wrap32 (Int.tdiv (q_target * x + (p / 2)) p)
    ZqElement.new decompressed q_target)
  Polynomial.new coeffs ⟨degree, q_target, poly.modulus_info.is_ntt_form⟩

/-- Embeds `compress_vector` from kyber-ml-kem/src/cpa.rs. -/
def compress_vector (vec : PolyVector) (bits : Nat) : PolyVector :=
  ⟨vec.entries.map (fun p => compress_poly p bits),
   ⟨vec.modulus_info.degree, 2 ^ bits, vec.modulus_info.is_ntt_form⟩⟩

/-- Embeds `decompress_vector` from kyber-ml-kem/src/cpa.rs. -/
def decompress_vector (vec : PolyVector) (q_target : Int) : PolyVector :=
  ⟨vec.entries.map (fun p => decompress_poly p q_target),
   ⟨vec.modulus_info.degree, q_target, vec.modulus_info.is_ntt_form⟩⟩

/-- Embeds `encrypt` from kyber-ml-kem/src/cpa.rs, statement by statement. -/
def encrypt (H : HashPrims) (pk : PublicKey) (msg : List Nat) (coins : List Nat) :
    Ciphertext :=
  let security_level := pk.security_level
  let k := security_level.k
  let eta1 := security_level.eta1
  let eta2 := security_level.eta2
  let mi := poly_modulus
  let mi_ntt := poly_modulus_ntt
  let params := get_ntt_params
  let dp := Polynomial.zero mi
  let m := decode_message msg mi
  let a_matrix := expand_matrix H pk.rho k k mi
  let a_t_hat := PolyMatrix.mk
    ((List.range k).map (fun i => PolyVector.mk
      ((List.range k).map (fun j =>
        ntt_forward ((a_matrix.getD j []).getD i dp) params)) mi_ntt))
    mi_ntt k k
  let r_entries := (List.range k).map (fun i =>
    sample_poly_from_seed H (prf H coins i 32) mi eta1)
  let r_hat := PolyVector.mk (r_entries.map (fun p => ntt_forward p params)) mi_ntt
  let e1_entries := (List.range k).map (fun i =>
    sample_poly_from_seed H (prf H coins (k + i) 32) mi eta2)
  let e2 := sample_poly_from_seed H (prf H coins (2 * k) 32) mi eta2
  let u_hat := a_t_hat.mul_vec r_hat (some params)
  let u_std := (List.range k).map (fun i =>
    ntt_inverse (u_hat.entries.getD i dp) params)
  let u := PolyVector.mk
    ((List.range k).map (fun i =>
      Polynomial.add (u_std.getD i dp) (e1_entries.getD i dp))) mi
  let tr_hat := (List.range k).foldl (fun acc i =>
    Polynomial.add acc
      (ntt_pointwise_mul (pk.t_hat.entries.getD i dp) (r_hat.entries.getD i dp)))
    (Polynomial.zero mi_ntt)
  let tr := ntt_inverse tr_hat params
  let v := Polynomial.add (Polynomial.add tr e2) m
  ⟨compress_vector u DU, compress_poly v DV⟩

/-- Embeds `decrypt` from kyber-ml-kem/src/cpa.rs. -/
def decrypt (sk : SecretKey) (ciphertext : Ciphertext) : List Nat :=
  let k := sk.security_level.k
  let mi_ntt := poly_modulus_ntt
  let params := get_ntt_params
  let dp := Polynomial.zero poly_modulus
  let u := decompress_vector ciphertext.u Q
  let v := decompress_poly ciphertext.v Q
  let u_hat := (List.range k).map (fun i => ntt_forward (u.entries.getD i dp) params)
  let su_hat := (List.range k).foldl (fun acc i =>
    Polynomial.add acc
      (ntt_pointwise_mul (sk.s_hat.entries.getD i dp) (u_hat.getD i dp)))
    (Polynomial.zero mi_ntt)
  let su := ntt_inverse su_hat params
  let mp := Polynomial.sub v su
  encode_message mp

/-- Embeds `pk_to_bytes` from kyber-ml-kem/src/cpa.rs: ρ, then each t̂ entry
taken back to the standard domain, compressed to 12 bits and packed. -/
def pk_to_bytes (pk : PublicKey) : List Nat :=
  pk.rho ++ pk.t_hat.entries.flatMap (fun poly =>
    let std_poly := if poly.modulus_info.is_ntt_form then ntt_inverse poly get_ntt_params
      else poly
    (compress_poly std_poly 12).to_bytes 12)

/-- Embeds `pk_from_bytes` from kyber-ml-kem/src/cpa.rs. -/
def pk_from_bytes (bytes : List Nat) (security_level : SecurityLevel) : PublicKey :=
  let k := security_level.k
  let bytes_per_poly := N * 12 / 8
  let rho := bytes.take 32
  let t_hat_entries := (List.range k).map (fun i =>
    let offset := 32 + i * bytes_per_poly
    let poly_bytes := (bytes.drop offset).take bytes_per_poly
    let poly_12bit := Polynomial.from_bytes poly_bytes ⟨N, 2 ^ 12, false⟩ 12
    let poly_q := decompress_poly poly_12bit Q
    ntt_forward poly_q get_ntt_params)
  ⟨rho, PolyVector.mk t_hat_entries poly_modulus_ntt, security_level⟩

/-- Embeds `sk_to_bytes` from kyber-ml-kem/src/cpa.rs. -/
def sk_to_bytes (sk : SecretKey) : List Nat :=
  sk.s_hat.entries.flatMap (fun poly =>
    let std_poly := if poly.modulus_info.is_ntt_form then ntt_inverse poly get_ntt_params
      else poly
    (compress_poly std_poly 12).to_bytes 12)

/-- Embeds `sk_from_bytes` from kyber-ml-kem/src/cpa.rs. -/
def sk_from_bytes (bytes : List Nat) (security_level : SecurityLevel) : SecretKey :=
  let k := security_level.k
  let bytes_per_poly := N * 12 / 8
  let s_hat_entries := (List.range k).map (fun i =>
    let offset := i * bytes_per_poly
    let poly_bytes := (bytes.drop offset).take bytes_per_poly
    let poly_12bit := Polynomial.from_bytes poly_bytes ⟨N, 2 ^ 12, false⟩ 12
    let poly_q := decompress_poly poly_12bit Q
    ntt_forward poly_q get_ntt_params)
  ⟨PolyVector.mk s_hat_entries poly_modulus_ntt, security_level⟩

/-- Embeds `ciphertext_to_bytes` from kyber-ml-kem/src/cpa.rs: the u entries
packed at d_u bits, then v packed at d_v bits. -/
def ciphertext_to_bytes (ct : Ciphertext) : List Nat :=
  ct.u.entries.flatMap (fun p => p.to_bytes DU) ++ ct.v.to_bytes DV

/-- Embeds `ciphertext_from_bytes` from kyber-ml-kem/src/cpa.rs, including the
short-input branch that substitutes all-zero polynomials. -/
def ciphertext_from_bytes (bytes : List Nat) (security_level : SecurityLevel) :
    Ciphertext :=
  let k := security_level.k
  let mi_u : PolyModulusInfo := ⟨N, 2 ^ DU, false⟩
  let mi_v : PolyModulusInfo := ⟨N, 2 ^ DV, false⟩
  let bytes_per_u_poly := N * DU / 8
  let total_u_bytes := k * bytes_per_u_poly
  let bytes_per_v_poly := N * DV / 8
  let expected_size := total_u_bytes + bytes_per_v_poly
  if bytes.length < expected_size then
    ⟨PolyVector.mk ((List.range k).map (fun _ => Polynomial.zero mi_u)) mi_u,
     Polynomial.zero mi_v⟩
  else
    let u_entries := (List.range k).map (fun i =>
      let offset := i * bytes_per_u_poly
      Polynomial.from_bytes ((bytes.drop offset).take bytes_per_u_poly) mi_u DU)
    let v_bytes := (bytes.drop (k * bytes_per_u_poly)).take bytes_per_v_poly
    ⟨PolyVector.mk u_entries mi_u, Polynomial.from_bytes v_bytes mi_v DV⟩

/-- Embeds the KEM `SecretKey` from kyber-ml-kem/src/kem.rs. -/
structure KemSecretKey where
  sk : SecretKey
  pk : PublicKey
  h_pk : List Nat
  z : List Nat

/-- Embeds `constant_time_compare` from kyber-ml-kem/src/kem.rs: length check,
then an OR-accumulation of the XOR of each byte pair, compared with zero. -/
def constant_time_compare (a b : List Nat) : Bool :=
  if a.length ≠ b.length then false
  else ((List.zipWith (fun x y => x ^^^ y) a b).foldl (fun result x => result ||| x) 0) == 0

/-- Embeds `decaps` from kyber-ml-kem/src/kem.rs, statement by statement. -/
def decaps (H : HashPrims) (sk : KemSecretKey) (ciphertext : Ciphertext) : List Nat :=
  let m_prime := decrypt sk.sk ciphertext
  let kr := hash_g H m_prime sk.h_pk
  let k_prime := kr.1
  let r_prime := kr.2
  let r_prime_coins := r_prime.take 32
  let ciphertext_prime := encrypt H sk.pk m_prime r_prime_coins
  let ct_bytes := ciphertext_to_bytes ciphertext
  let ct_prime_bytes := ciphertext_to_bytes ciphertext_prime
  let k_bytes := k_prime.take 32
  if constant_time_compare ct_bytes ct_prime_bytes then k_bytes
  else H.sha3_256 (sk.z ++ ct_bytes)

/-- The ambient OS entropy source, modelled as a byte stream. -/
def EntropySource : Type := Nat → Nat

/-- Embeds `decaps` threaded through the ambient `OsRng` state: the source
body of `decaps` (and of the `decrypt` and `encrypt` it calls) contains no
`fill`/`gen` call on the entropy source, so the stream passes through
untouched; only `keygen` and `encaps` draw from it. -/
def decaps_with_entropy (H : HashPrims) (os_rng : EntropySource) (sk : KemSecretKey)
    (ciphertext : Ciphertext) : List Nat × EntropySource :=
  (decaps H sk ciphertext, os_rng)

/-- Embeds `sk_to_bytes` from kyber-ml-kem/src/kem.rs: CPA secret key, then
the public key, then H(pk), then z. -/
def kem_sk_to_bytes (sk : KemSecretKey) : List Nat :=
  sk_to_bytes sk.sk ++ pk_to_bytes sk.pk ++ sk.h_pk ++ sk.z

/-- Embeds `sk_from_bytes` from kyber-ml-kem/src/kem.rs. -/
def kem_sk_from_bytes (bytes : List Nat) (security_level : SecurityLevel) : KemSecretKey :=
  let sk_cpa_size := secret_key_cpa_bytes security_level
  let pk_size := public_key_bytes security_level
  let sk := sk_from_bytes (bytes.take sk_cpa_size) security_level
  let pk := pk_from_bytes ((bytes.drop sk_cpa_size).take pk_size) security_level
  let h_pk := (bytes.drop (sk_cpa_size + pk_size)).take 32
  let z := (bytes.drop (sk_cpa_size + pk_size + 32)).take 32
  ⟨sk, pk, h_pk, z⟩

end Kyber

/-- Specification-side decapsulation, following the words of the claim for C1:
m' is the CPA decryption, (K', r') = G(m', h) with h the stored public-key
hash, ct' the CPA re-encryption of m' under the stored public key with coins
r', and the result is K' exactly when the serialized bytes of ct equal the
serialized bytes of ct', else SHA3-256(z ∥ ct bytes). To be compared with the
implementation's `decaps`. -/
def decaps_spec (H : HashPrims) (sk : Kyber.KemSecretKey) (ct : Kyber.Ciphertext) :
    List Nat :=
  let m_prime := Kyber.decrypt sk.sk ct
  let kr := hash_g H m_prime sk.h_pk
  let ct_prime := Kyber.encrypt H sk.pk m_prime (kr.2.take 32)
  if Kyber.ciphertext_to_bytes ct = Kyber.ciphertext_to_bytes ct_prime then kr.1
  else H.sha3_256 (sk.z ++ Kyber.ciphertext_to_bytes ct)

/-- Well-formedness of a coefficient list: every element carries the modulus q
and a representative already reduced into [0, q) — the invariant every
constructor of the library establishes and every operation preserves. -/
def ZqWF (q : Int) (c : List ZqElement) : Prop :=
  ∀ x ∈ c, x.q = q ∧ 0 ≤ x.value ∧ x.value < q

/-- Pointwise doubling of a coefficient: the net effect, on each slot, of one
forward butterfly stage followed by the matching inverse stage. -/
def zq_double (x : ZqElement) : ZqElement := ZqElement.add x x

/-- m-fold pointwise doubling of a coefficient list. -/
def double_iter : Nat → List ZqElement → List ZqElement
  | 0, c => c
  | m + 1, c => (double_iter m c).map zq_double

/-! Theorems. -/

/-- A cast `as i32` of a value already in i32 range is the identity. -/
theorem wrap32_eq_self {x : Int} (hlo : -i32Half ≤ x) (hhi : x < i32Half) :
    wrap32 x = x := by
  unfold wrap32 i32Half i32Size at *
  omega

/-- Truncated remainder of a negation is the negated truncated remainder. -/
theorem tmod_neg_left (w q : Int) : Int.tmod (-w) q = -(Int.tmod w q) := by
  rw [Int.tmod_def, Int.tmod_def, Int.neg_tdiv]
  ring

/-- For a positive modulus, `ZqElement.normalize` agrees with the Euclidean
`%`. -/
theorem ZqElement.normalize_eq_emod (v : Int) {q : Int} (hq : 0 < q) :
    ZqElement.normalize v q = v % q := by
  unfold ZqElement.normalize
  have htq : Int.tmod v q % q = v % q := by
    rw [Int.tmod_def]
    have h : v - q * v.tdiv q = v + q * (-(v.tdiv q)) := by ring
    rw [h, Int.add_mul_emod_self_left]
  have hub : Int.tmod v q < q := Int.tmod_lt_of_pos v hq
  have hlb : -q < Int.tmod v q := by
    rcases le_or_lt 0 v with hv | hv
    · have := Int.tmod_nonneg q hv
      omega
    · have hneg : Int.tmod v q = -(Int.tmod (-v) q) := by
        have := tmod_neg_left (-v) q
        simp only [neg_neg] at this
        omega
      have := Int.tmod_lt_of_pos (-v) hq
      omega
  by_cases h : Int.tmod v q < 0
  · rw [if_pos h, ← htq]
    have h2 : Int.tmod v q = (Int.tmod v q + q) + q * (-1) := by ring
    rw [h2, Int.add_mul_emod_self_left, Int.emod_eq_of_lt (by omega) (by omega)]
    omega
  · rw [if_neg h, ← htq, Int.emod_eq_of_lt (by omega) (by omega)]

/-- For a positive modulus the normalized value lies in [0, q). -/
theorem ZqElement.normalize_bounds (v : Int) {q : Int} (hq : 0 < q) :
    0 ≤ ZqElement.normalize v q ∧ ZqElement.normalize v q < q := by
  rw [ZqElement.normalize_eq_emod v hq]
  exact ⟨Int.emod_nonneg v (ne_of_gt hq), Int.emod_lt_of_pos v hq⟩

/-- C5: the specification states that multiplication in Z_q widens to 64 bits
before reduction so that no 32-bit overflow affects the result, in particular
for the Dilithium modulus q = 8380417. The code widens but then casts the full
64-bit product back with `as i32` BEFORE reducing, so the product wraps: at
a = b = 65536 (both valid residues, 65536 < 8380417) the code returns 0 while
(65536 · 65536) mod 8380417 = 4193792. -/
theorem C5_zq_mul_wraps_for_dilithium_modulus :
    (ZqElement.mul (ZqElement.new 65536 8380417) (ZqElement.new 65536 8380417)).value = 0
    ∧ ((65536 : Int) * 65536) % 8380417 = 4193792
    ∧ (0 : Int) ≠ 4193792 := by
  refine ⟨?_, by decide, by decide⟩
  decide

/-- C3: the specification states that the NTT-based product equals the
schoolbook negacyclic product for all operands matching the NTT parameters,
and the source's own unit test test_ntt_polynomial_multiplication asserts this
at q = 97, n = 8, ψ = 13, p = 1+2X, q = 3+4X. The twiddle table built by
`precompute_roots` raises ψ only to the powers (bit_reverse(i)·n/2) mod n ∈
{0, n/2}, so the transform is not the negacyclic NTT: on the test input the
NTT path yields 51+10X while the schoolbook product is 3+10X+8X². -/
theorem C3_ntt_mul_diverges_from_schoolbook :
    (ntt_polynomial_mul
        (Polynomial.new [ZqElement.new 1 97, ZqElement.new 2 97] ⟨8, 97, false⟩)
        (Polynomial.new [ZqElement.new 3 97, ZqElement.new 4 97] ⟨8, 97, false⟩)
        (NTTParams.new 97 8 13)).coeffs.map ZqElement.value = [51, 10, 0, 0, 0, 0, 0, 0]
    ∧ ((Polynomial.new [ZqElement.new 1 97, ZqElement.new 2 97] ⟨8, 97, false⟩).schoolbook_mul
        (Polynomial.new [ZqElement.new 3 97, ZqElement.new 4 97] ⟨8, 97, false⟩)).coeffs.map
        ZqElement.value = [3, 10, 8, 0, 0, 0, 0, 0] := by
  constructor
  · set_option maxRecDepth 10000 in decide
  · set_option maxRecDepth 10000 in decide

/-- C8: for every security level and every byte string shorter than the
expected ciphertext size, `ciphertext_from_bytes` returns the ciphertext whose
u component is k all-zero polynomials and whose v component is the all-zero
polynomial. -/
theorem C8_short_ciphertext_bytes_give_zero (level : SecurityLevel) (bytes : List Nat)
    (h : bytes.length < Kyber.ciphertext_bytes level) :
    Kyber.ciphertext_from_bytes bytes level =
      ⟨PolyVector.mk (List.replicate level.k (Polynomial.zero ⟨Kyber.N, 2 ^ Kyber.DU, false⟩))
          ⟨Kyber.N, 2 ^ Kyber.DU, false⟩,
       Polynomial.zero ⟨Kyber.N, 2 ^ Kyber.DV, false⟩⟩ := by
  have hsize : Kyber.ciphertext_bytes level =
      level.k * (Kyber.N * Kyber.DU / 8) + Kyber.N * Kyber.DV / 8 := by
    cases level <;> decide
  unfold Kyber.ciphertext_from_bytes
  rw [if_pos (by rw [hsize] at h; exact h)]
  have hmap : (List.range level.k).map
      (fun _ => Polynomial.zero ⟨Kyber.N, 2 ^ Kyber.DU, false⟩) =
      List.replicate level.k (Polynomial.zero ⟨Kyber.N, 2 ^ Kyber.DU, false⟩) := by
    rw [List.map_const', List.length_range]
  rw [hmap]

/-- C8 witness: the empty byte string is shorter than the Kyber-512 ciphertext
size and deserializes to the all-zero ciphertext. -/
theorem C8_witness :
    ([] : List Nat).length < Kyber.ciphertext_bytes SecurityLevel.Kyber512
    ∧ Kyber.ciphertext_from_bytes [] SecurityLevel.Kyber512 =
      ⟨PolyVector.mk
          (List.replicate (SecurityLevel.Kyber512.k)
            (Polynomial.zero ⟨Kyber.N, 2 ^ Kyber.DU, false⟩))
          ⟨Kyber.N, 2 ^ Kyber.DU, false⟩,
       Polynomial.zero ⟨Kyber.N, 2 ^ Kyber.DV, false⟩⟩ :=
  ⟨by decide, C8_short_ciphertext_bytes_give_zero SecurityLevel.Kyber512 [] (by decide)⟩

/-- Setting an entry back to its own value changes nothing. -/
theorem list_set_self (l : List Nat) (i : Nat) (h : i < l.length) :
    l.set i l[i] = l := by
  apply List.ext_getElem
  · simp
  · intro n h1 h2
    rw [List.getElem_set]
    split
    · subst ‹i = n›
      rfl
    · rfl

/-- Swapping the entries at two valid indices permutes the list. -/
theorem set_set_swap_perm (l : List Nat) (i j : Nat) (hi : i < l.length) (hj : j < l.length) :
    ((l.set i (l.getD j 0)).set j (l.getD i 0)).Perm l := by
  rw [List.getD_eq_getElem l 0 hj, List.getD_eq_getElem l 0 hi]
  by_cases hij : i = j
  · subst hij
    rw [List.set_set, list_set_self l i hi]
  · rw [List.perm_iff_count]
    intro a
    have hlen : j < (l.set i l[j]).length := by simpa using hj
    have hA : (l.set i l[j])[j] = l[j] := List.getElem_set_ne hij _
    rw [List.count_set _ _ _ _ (by simpa using hj), hA, List.count_set _ _ _ _ hi]
    have hci : l[i] = a → 0 < l.count a := fun h =>
      List.count_pos_iff.mpr (h ▸ List.getElem_mem hi)
    by_cases h1 : l[i] = a <;> by_cases h2 : l[j] = a
    · have := hci h1
      simp only [h1, h2, beq_self_eq_true, if_true]
      omega
    · have := hci h1
      simp [h1, h2]
      omega
    · simp [h1, h2]
    · simp [h1, h2]

/-- The partial Fisher–Yates fold of `sample_challenge` keeps the positions
list a permutation of [0..n). -/
theorem challenge_positions_perm (rngRange : Nat → Nat) (n : Nat) :
    ∀ (idxs : List Nat) (l : List Nat), l.Perm (List.range n) →
      (∀ i ∈ idxs, i < n ∧ i + rngRange i < n) →
      (idxs.foldl (fun pos i =>
        (pos.set i (pos.getD (i + rngRange i) 0)).set (i + rngRange i) (pos.getD i 0))
        l).Perm (List.range n) := by
  intro idxs
  induction idxs with
  | nil =>
    intro l hl _
    simpa using hl
  | cons i rest ih =>
    intro l hl hmem
    simp only [List.foldl_cons]
    apply ih
    · have hlen : l.length = n := by rw [hl.length_eq, List.length_range]
      have h1 := (hmem i (by simp)).1
      have h2 := (hmem i (by simp)).2
      exact (set_set_swap_perm l i (i + rngRange i) (by omega) (by omega)).trans hl
    · intro x hx
      exact hmem x (by simp [hx])

/-- Writing ±1 at τ pairwise-distinct in-range positions of the all-zero array
produces exactly m nonzero entries after m writes, leaves unwritten positions
zero, and keeps every entry in {0, 1, −1}. -/
theorem challenge_values_spec (n tau : Nat) (pos : List Nat) (rngBool : Nat → Bool)
    (hlen : pos.length = n) (hnodup : pos.Nodup) (hbound : ∀ x ∈ pos, x < n)
    (htau : tau ≤ n) :
    ∀ m, m ≤ tau →
      ((List.range m).foldl
        (fun vals i => vals.set (pos.getD i 0) (if rngBool i then (1 : Int) else -1))
        (List.replicate n (0 : Int))).length = n
      ∧ ((List.range m).foldl
        (fun vals i => vals.set (pos.getD i 0) (if rngBool i then (1 : Int) else -1))
        (List.replicate n (0 : Int))).countP (fun v => decide (v ≠ 0)) = m
      ∧ (∀ j, m ≤ j → j < tau →
        ((List.range m).foldl
          (fun vals i => vals.set (pos.getD i 0) (if rngBool i then (1 : Int) else -1))
          (List.replicate n (0 : Int))).getD (pos.getD j 0) 0 = 0)
      ∧ (∀ v ∈ (List.range m).foldl
          (fun vals i => vals.set (pos.getD i 0) (if rngBool i then (1 : Int) else -1))
          (List.replicate n (0 : Int)), v = 0 ∨ v = 1 ∨ v = -1) := by
  have hposD : ∀ j, j < tau → pos.getD j 0 < n := by
    intro j hj
    have hjl : j < pos.length := by omega
    rw [List.getD_eq_getElem pos 0 hjl]
    exact hbound _ (List.getElem_mem hjl)
  have hposinj : ∀ j j', j < tau → j' < tau → j ≠ j' → pos.getD j 0 ≠ pos.getD j' 0 := by
    intro j j' hj hj' hne
    have hjl : j < pos.length := by omega
    have hjl' : j' < pos.length := by omega
    rw [List.getD_eq_getElem pos 0 hjl, List.getD_eq_getElem pos 0 hjl']
    intro heq
    exact hne ((List.Nodup.getElem_inj_iff hnodup).mp heq)
  intro m
  induction m with
  | zero =>
    intro _
    simp only [List.range_zero, List.foldl_nil]
    have hcz : ∀ k : Nat, (List.replicate k (0 : Int)).countP (fun v => decide (v ≠ 0)) = 0 := by
      intro k
      induction k with
      | zero => simp
      | succ k ihk => simp [List.replicate_succ, List.countP_cons, ihk]
    refine ⟨by simp, hcz n, ?_, ?_⟩
    · intro j _ hj
      have := hposD j hj
      rw [List.getD_eq_getElem _ 0 (by simpa using this), List.getElem_replicate]
    · intro v hv
      left
      exact (List.eq_of_mem_replicate hv)
  | succ m ih =>
    intro hm1
    obtain ⟨ihlen, ihcount, ihuntouched, ihmem⟩ := ih (by omega)
    rw [List.range_succ, List.foldl_append, List.foldl_cons, List.foldl_nil]
    set vm := (List.range m).foldl
      (fun vals i => vals.set (pos.getD i 0) (if rngBool i then (1 : Int) else -1))
      (List.replicate n (0 : Int)) with hvm
    have hxn : pos.getD m 0 < n := hposD m (by omega)
    have hxl : pos.getD m 0 < vm.length := by omega
    have hcur : vm[pos.getD m 0] = 0 := by
      have := ihuntouched m le_rfl (by omega)
      rwa [List.getD_eq_getElem _ 0 hxl] at this
    refine ⟨by simpa using ihlen, ?_, ?_, ?_⟩
    · rw [List.countP_set _ _ _ _ hxl, hcur]
      have hc : decide ((if rngBool m then (1 : Int) else -1) ≠ 0) = true := by
        by_cases hb : rngBool m <;> simp [hb]
      rw [hc, if_pos rfl, if_neg (by decide)]
      omega
    · intro j hj hjt
      have hne : pos.getD j 0 ≠ pos.getD m 0 :=
        hposinj j m hjt (by omega) (by omega)
      have hjn : pos.getD j 0 < n := hposD j hjt
      rw [List.getD_eq_getElem _ 0 (by rw [List.length_set]; omega),
        List.getElem_set_ne (fun h => hne h.symm)]
      have := ihuntouched j (by omega) hjt
      rwa [List.getD_eq_getElem _ 0 (by omega)] at this
    · intro v hv
      rcases List.mem_or_eq_of_mem_set hv with h | h
      · exact ihmem v h
      · by_cases hb : rngBool m
        · right; left; simp [hb] at h; exact h
        · right; right; simp [hb] at h; exact h

/-- The representative of a freshly constructed zero is zero. -/
theorem znew_zero_value (q : Int) : (ZqElement.new 0 q).value = 0 := by
  simp [ZqElement.new, ZqElement.normalize]

/-- The representative of a freshly constructed one is one when 2 ≤ q. -/
theorem znew_one_value {q : Int} (hq : 2 ≤ q) : (ZqElement.new 1 q).value = 1 := by
  show ZqElement.normalize 1 q = 1
  rw [ZqElement.normalize_eq_emod 1 (by omega)]
  exact Int.emod_eq_of_lt (by omega) (by omega)

/-- The representative of minus one is q − 1 when 2 ≤ q. -/
theorem znew_negone_value {q : Int} (hq : 2 ≤ q) : (ZqElement.new (-1) q).value = q - 1 := by
  show ZqElement.normalize (-1) q = q - 1
  rw [ZqElement.normalize_eq_emod (-1) (by omega)]
  have h : (-1 : Int) = (q - 1) + q * (-1) := by ring
  rw [h, Int.add_mul_emod_self_left, Int.emod_eq_of_lt (by omega) (by omega)]

/-- C9: for every τ ≤ n, every modulus q ≥ 2 and every generator state
(modelled as the two draw streams, with `rngRange i` in the range the source
requests), the sampled challenge polynomial has exactly τ nonzero
coefficients, and every nonzero coefficient has representative 1 or q − 1. -/
theorem C9_sample_challenge_tau_pm_one (tau : Nat) (mi : PolyModulusInfo)
    (rngRange : Nat → Nat) (rngBool : Nat → Bool)
    (htau : tau ≤ mi.degree) (hq : 2 ≤ mi.q)
    (hrng : ∀ i, i < tau → rngRange i < mi.degree - i) :
    ((sample_challenge tau mi rngRange rngBool).coeffs.filter
      (fun c => c.value ≠ 0)).length = tau
    ∧ ∀ c ∈ (sample_challenge tau mi rngRange rngBool).coeffs,
        c.value = 0 ∨ c.value = 1 ∨ c.value = mi.q - 1 := by
  have hperm : ((List.range tau).foldl (fun pos i =>
      (pos.set i (pos.getD (i + rngRange i) 0)).set (i + rngRange i) (pos.getD i 0))
      (List.range mi.degree)).Perm (List.range mi.degree) := by
    apply challenge_positions_perm rngRange mi.degree (List.range tau)
      (List.range mi.degree) (List.Perm.refl _)
    intro i hi
    have hit : i < tau := List.mem_range.mp hi
    have := hrng i hit
    constructor
    · omega
    · omega
  set pos := (List.range tau).foldl (fun pos i =>
      (pos.set i (pos.getD (i + rngRange i) 0)).set (i + rngRange i) (pos.getD i 0))
      (List.range mi.degree) with hposdef
  have hlen : pos.length = mi.degree := by rw [hperm.length_eq, List.length_range]
  have hnodup : pos.Nodup := hperm.nodup_iff.mpr (List.nodup_range mi.degree)
  have hbound : ∀ x ∈ pos, x < mi.degree := by
    intro x hx
    exact List.mem_range.mp (hperm.mem_iff.mp hx)
  obtain ⟨hvlen, hvcount, _, hvmem⟩ :=
    challenge_values_spec mi.degree tau pos rngBool hlen hnodup hbound htau tau le_rfl
  set vals := (List.range tau).foldl
    (fun vals i => vals.set (pos.getD i 0) (if rngBool i then (1 : Int) else -1))
    (List.replicate mi.degree (0 : Int)) with hvalsdef
  have hsc : sample_challenge tau mi rngRange rngBool =
      Polynomial.new (vals.map (fun v => ZqElement.new v mi.q)) mi := rfl
  have hclen : (vals.map (fun v => ZqElement.new v mi.q)).length = mi.degree := by
    rw [List.length_map]
    exact hvlen
  have hcoeffs : (sample_challenge tau mi rngRange rngBool).coeffs =
      vals.map (fun v => ZqElement.new v mi.q) := by
    rw [hsc]
    show vals.map (fun v => ZqElement.new v mi.q) ++
      List.replicate (mi.degree - (vals.map (fun v => ZqElement.new v mi.q)).length)
        (ZqElement.new 0 mi.q) = _
    rw [hclen, Nat.sub_self, List.replicate_zero, List.append_nil]
  constructor
  · rw [hcoeffs, List.filter_map, List.length_map, ← List.countP_eq_length_filter]
    rw [← hvcount]
    apply List.countP_congr
    intro v hv
    rcases hvmem v hv with h | h | h <;> subst h <;>
      simp [Function.comp, znew_zero_value, znew_one_value hq, znew_negone_value hq] <;>
      omega
  · rw [hcoeffs]
    intro c hc
    rcases List.mem_map.mp hc with ⟨v, hv, hfc⟩
    rcases hvmem v hv with h | h | h <;> subst h
    · left
      rw [← hfc, znew_zero_value]
    · right; left
      rw [← hfc, znew_one_value hq]
    · right; right
      rw [← hfc, znew_negone_value hq]

/-- C9 witness: at τ = 2, n = 4, q = 8380417, with a concrete generator
state, the sampler yields exactly two nonzero coefficients, each 1 or q − 1. -/
theorem C9_witness :
    (2 ≤ (⟨4, 8380417, false⟩ : PolyModulusInfo).degree
      ∧ 2 ≤ (⟨4, 8380417, false⟩ : PolyModulusInfo).q
      ∧ ∀ i, i < 2 → (fun _ => 1 : Nat → Nat) i <
          (⟨4, 8380417, false⟩ : PolyModulusInfo).degree - i)
    ∧ ((sample_challenge 2 ⟨4, 8380417, false⟩ (fun _ => 1) (fun i => i % 2 = 0)).coeffs.filter
        (fun c => c.value ≠ 0)).length = 2
    ∧ ∀ c ∈ (sample_challenge 2 ⟨4, 8380417, false⟩ (fun _ => 1) (fun i => i % 2 = 0)).coeffs,
        c.value = 0 ∨ c.value = 1 ∨ c.value = (⟨4, 8380417, false⟩ : PolyModulusInfo).q - 1 :=
  ⟨⟨by decide, by decide, by decide⟩,
   C9_sample_challenge_tau_pm_one 2 ⟨4, 8380417, false⟩ (fun _ => 1) (fun i => i % 2 = 0)
     (by decide) (by decide) (by decide)⟩

/-- Length and entries of a flatMap whose blocks are 8-entry ranges. -/
theorem range_flatMap_block {α : Type} (F : Nat → Nat → α) (d : α) (c : Nat) :
    ((List.range c).flatMap (fun i => (List.range 8).map (F i))).length = 8 * c
    ∧ ∀ k j, k < c → j < 8 →
      ((List.range c).flatMap (fun i => (List.range 8).map (F i))).getD (8 * k + j) d
        = F k j := by
  induction c with
  | zero => exact ⟨by simp, fun k j hk _ => absurd hk (by omega)⟩
  | succ c ih =>
    obtain ⟨ihlen, ihget⟩ := ih
    rw [List.range_succ, List.flatMap_append]
    constructor
    · simp only [List.length_append, ihlen]
      simp
      omega
    · intro k j hk hj
      rcases Nat.lt_or_ge k c with hkc | hkc
      · rw [List.getD_append _ _ _ _ (by rw [ihlen]; omega)]
        exact ihget k j hkc hj
      · have hkeq : k = c := by omega
        subst hkeq
        rw [List.getD_append_right _ _ _ _ (by rw [ihlen]; omega), ihlen]
        have hidx : 8 * k + j - 8 * k = j := by omega
        rw [hidx, List.getD_eq_getElem _ _ (by simpa using hj)]
        simp

/-- A fold whose every step rewrites only index k is the single update of
index k by the folded value. -/
theorem foldl_set_or_single (k : Nat) (g : Nat → Nat) :
    ∀ (l : List Nat) (m : List Nat), k < m.length →
      l.foldl (fun m j => m.set k (m.getD k 0 ||| g j)) m
        = m.set k (l.foldl (fun acc j => acc ||| g j) (m.getD k 0)) := by
  intro l
  induction l with
  | nil =>
    intro m hk
    rw [List.foldl_nil, List.foldl_nil, List.getD_eq_getElem _ _ hk, list_set_self]
  | cons j t ih =>
    intro m hk
    simp only [List.foldl_cons]
    rw [ih _ (by simpa using hk), List.set_set]
    congr 1
    rw [List.getD_eq_getElem _ _ (by simpa using hk), List.getElem_set_self]

/-- OR-ing the shifted bits of a byte back together recovers the byte. -/
theorem byte_or_reconstruct :
    ∀ b, b < 256 →
      (List.range 8).foldl (fun acc j => acc ||| (((b >>> j) &&& 1) <<< j)) 0 = b := by
  set_option maxRecDepth 4000 in decide

/-- C7 counterexample: the claim quantifies over every modulus info M, but for
degree n = 128 (with the Kyber modulus) the decoder drops the upper 128
message bits, so the byte 16 (bit position 128) is lost: Encode(Decode(m, M))
returns the all-zero message for m = 0^16 ∥ 01 ∥ 0^15. -/
theorem C7_counterexample :
    Kyber.encode_message (Kyber.decode_message
        (List.replicate 16 0 ++ 1 :: List.replicate 15 0)
        ⟨128, 3329, false⟩)
      ≠ List.replicate 16 0 ++ 1 :: List.replicate 15 0 := by
  set_option maxRecDepth 10000 in decide

/-- The encoder recovers msg whenever the threshold test of every coefficient
agrees with the corresponding message bit. -/
theorem encode_message_of_bits (p : Polynomial) (msg : List Nat)
    (hmlen : msg.length = 32) (hbytes : ∀ b ∈ msg, b < 256)
    (hplen : 256 ≤ p.coeffs.length)
    (hbit : ∀ i, i < 256 →
      (if Int.tdiv p.modulus_info.q 4 < (p.coeffs.getD i (zq0 p.modulus_info.q)).value
          ∧ (p.coeffs.getD i (zq0 p.modulus_info.q)).value < Int.tdiv (3 * p.modulus_info.q) 4
        then (1 : Nat) else 0) = (msg.getD (i / 8) 0 >>> (i % 8)) &&& 1) :
    Kyber.encode_message p = msg := by
  simp only [Kyber.encode_message]
  rw [show min p.coeffs.length 256 = 256 by omega]
  rw [List.foldl_ext _ (fun m i =>
      m.set (i / 8) (m.getD (i / 8) 0 ||| (((msg.getD (i / 8) 0 >>> (i % 8)) &&& 1) <<< (i % 8))))
      _ ?hext]
  case hext =>
    intro m i hi
    rw [hbit i (List.mem_range.mp hi)]
  have hbytefold : ∀ k, k ≤ 32 →
      (List.range (8 * k)).foldl (fun m i =>
        m.set (i / 8) (m.getD (i / 8) 0 ||| (((msg.getD (i / 8) 0 >>> (i % 8)) &&& 1) <<< (i % 8))))
        (List.replicate 32 0)
      = msg.take k ++ List.replicate (32 - k) 0 := by
    intro k
    induction k with
    | zero => simp
    | succ k ihk =>
      intro hk1
      have hk : k < 32 := by omega
      have hstate := ihk (by omega)
      have hslen : (msg.take k ++ List.replicate (32 - k) 0).length = 32 := by
        rw [List.length_append, List.length_take, List.length_replicate]
        omega
      rw [show 8 * (k + 1) = 8 * k + 8 by ring, List.range_add, List.foldl_append, hstate,
        List.foldl_map]
      rw [List.foldl_ext _ (fun m j =>
          m.set k (m.getD k 0 ||| (((msg.getD k 0 >>> j) &&& 1) <<< j))) _ ?hblock]
      case hblock =>
        intro m j hj
        have hj8 : j < 8 := List.mem_range.mp hj
        have hdiv : (8 * k + j) / 8 = k := by omega
        have hmod : (8 * k + j) % 8 = j := by omega
        rw [hdiv, hmod]
      rw [foldl_set_or_single k _ _ _ (by omega)]
      have hcur0 : (msg.take k ++ List.replicate (32 - k) 0).getD k 0 = 0 := by
        rw [List.getD_append_right _ _ _ _ (by rw [List.length_take]; omega)]
        rw [List.length_take, show k - min k msg.length = 0 by omega]
        rw [List.getD_eq_getElem _ _ (by rw [List.length_replicate]; omega),
          List.getElem_replicate]
      rw [hcur0]
      have hrecon : (List.range 8).foldl
          (fun acc j => acc ||| (((msg.getD k 0 >>> j) &&& 1) <<< j)) 0 = msg.getD k 0 := by
        apply byte_or_reconstruct
        have hkm : k < msg.length := by omega
        rw [List.getD_eq_getElem _ _ hkm]
        exact hbytes _ (List.getElem_mem hkm)
      rw [hrecon]
      have hset : (msg.take k ++ List.replicate (32 - k) 0).set k (msg.getD k 0)
          = msg.take (k + 1) ++ List.replicate (32 - (k + 1)) 0 := by
        have h32k : 32 - k = (32 - (k + 1)) + 1 := by omega
        rw [h32k, List.replicate_succ,
          List.set_append_right _ _ (by rw [List.length_take]; omega)]
        rw [List.length_take, show k - min k msg.length = 0 by omega, List.set_cons_zero]
        have htk : msg.take (k + 1) = msg.take k ++ [msg.getD k 0] := by
          rw [List.getD_eq_getElem _ _ (by omega), ← List.take_concat_get, List.concat_eq_append]
        rw [htk, List.append_assoc, List.singleton_append]
      rw [hset]
  have hfinal := hbytefold 32 le_rfl
  rw [show (8 * 32 : Nat) = 256 by norm_num] at hfinal
  rw [hfinal, show (32 - 32 : Nat) = 0 by norm_num, List.replicate_zero, List.append_nil,
    ← hmlen, List.take_length]

/-- C7 amended: for every 32-byte message and every modulus info of degree at
least 256 and modulus at least 3, encoding after decoding recovers the message
exactly. -/
theorem C7_encode_decode_roundtrip (msg : List Nat) (mi : PolyModulusInfo)
    (hlen : msg.length = 32) (hbytes : ∀ b ∈ msg, b < 256)
    (hn : 256 ≤ mi.degree) (hq : 3 ≤ mi.q) :
    Kyber.encode_message (Kyber.decode_message msg mi) = msg := by
  have hq2 : Int.tdiv mi.q 2 = mi.q / 2 := Int.tdiv_eq_ediv (by omega) (by omega)
  have hq4 : Int.tdiv mi.q 4 = mi.q / 4 := Int.tdiv_eq_ediv (by omega) (by omega)
  have hq34 : Int.tdiv (3 * mi.q) 4 = 3 * mi.q / 4 := Int.tdiv_eq_ediv (by omega) (by omega)
  have hdec : Kyber.decode_message msg mi =
      Polynomial.new ((List.range 32).flatMap (fun i => (List.range 8).map (fun j =>
        ZqElement.new
          (if (msg.getD i 0 >>> j) &&& 1 = 1 then Int.tdiv mi.q 2 else 0) mi.q))) mi := by
    simp only [Kyber.decode_message]
    congr 1
    apply List.flatMap_congr
    intro i hi
    have hi32 : i < 32 := List.mem_range.mp hi
    have hcong : ∀ j ∈ List.range 8,
        (if i * 8 + j < mi.degree then
          some (ZqElement.new
            (if (msg.getD i 0 >>> j) &&& 1 = 1 then Int.tdiv mi.q 2 else 0) mi.q)
        else none)
        = (some ∘ fun j => ZqElement.new
            (if (msg.getD i 0 >>> j) &&& 1 = 1 then Int.tdiv mi.q 2 else 0) mi.q) j := by
      intro j hj
      have hj8 : j < 8 := List.mem_range.mp hj
      simp only [Function.comp]
      rw [if_pos (by omega)]
    rw [List.filterMap_congr hcong, List.filterMap_eq_map]
  obtain ⟨hblen, hbget⟩ := range_flatMap_block
    (fun i j => ZqElement.new
      (if (msg.getD i 0 >>> j) &&& 1 = 1 then Int.tdiv mi.q 2 else 0) mi.q) (zq0 mi.q) 32
  have hcoeffs : (Kyber.decode_message msg mi).coeffs =
      ((List.range 32).flatMap (fun i => (List.range 8).map (fun j =>
        ZqElement.new
          (if (msg.getD i 0 >>> j) &&& 1 = 1 then Int.tdiv mi.q 2 else 0) mi.q)))
      ++ List.replicate (mi.degree -
        ((List.range 32).flatMap (fun i => (List.range 8).map (fun j =>
          ZqElement.new
            (if (msg.getD i 0 >>> j) &&& 1 = 1 then Int.tdiv mi.q 2 else 0) mi.q))).length)
        (ZqElement.new 0 mi.q) := by
    rw [hdec]
    rfl
  have hclen : (Kyber.decode_message msg mi).coeffs.length = mi.degree := by
    rw [hcoeffs, List.length_append, hblen, List.length_replicate]
    omega
  have hcget : ∀ i, i < 256 →
      (Kyber.decode_message msg mi).coeffs.getD i (zq0 mi.q)
        = ZqElement.new
            (if (msg.getD (i / 8) 0 >>> (i % 8)) &&& 1 = 1 then Int.tdiv mi.q 2 else 0) mi.q := by
    intro i hi
    rw [hcoeffs, List.getD_append _ _ _ _ (by rw [hblen]; omega)]
    have hi8 : i = 8 * (i / 8) + i % 8 := by omega
    nth_rewrite 1 [hi8]
    rw [hbget (i / 8) (i % 8) (by omega) (by omega)]
  apply encode_message_of_bits _ msg hlen hbytes (by omega)
  intro i hi
  have hmq : (Kyber.decode_message msg mi).modulus_info = mi := by
    rw [hdec]
    rfl
  rw [hmq, hcget i hi]
  by_cases hb : (msg.getD (i / 8) 0 >>> (i % 8)) &&& 1 = 1
  · rw [if_pos hb, hb]
    have hval : (ZqElement.new (Int.tdiv mi.q 2) mi.q).value = mi.q / 2 := by
      show ZqElement.normalize (Int.tdiv mi.q 2) mi.q = mi.q / 2
      rw [ZqElement.normalize_eq_emod _ (by omega), hq2,
        Int.emod_eq_of_lt (by omega) (by omega)]
    rw [hval, if_pos (by rw [hq4, hq34]; omega)]
  · rw [if_neg hb]
    have hb0 : (msg.getD (i / 8) 0 >>> (i % 8)) &&& 1 = 0 := by
      rcases Nat.and_one_is_mod (msg.getD (i / 8) 0 >>> (i % 8)) ▸ Nat.mod_two_eq_zero_or_one
        (msg.getD (i / 8) 0 >>> (i % 8)) with h | h
      · exact h
      · exact absurd h hb
    rw [hb0]
    have hval : (ZqElement.new 0 mi.q).value = 0 := znew_zero_value mi.q
    rw [hval, if_neg (by rw [hq4]; omega)]

/-- C7 witness for the amended claim: a concrete 32-byte message, degree 256
and the Kyber modulus. -/
theorem C7_witness :
    ((List.replicate 31 0 ++ [255] : List Nat).length = 32
      ∧ (∀ b ∈ (List.replicate 31 0 ++ [255] : List Nat), b < 256)
      ∧ 256 ≤ (⟨256, 3329, false⟩ : PolyModulusInfo).degree
      ∧ 3 ≤ (⟨256, 3329, false⟩ : PolyModulusInfo).q)
    ∧ Kyber.encode_message (Kyber.decode_message
        (List.replicate 31 0 ++ [255]) ⟨256, 3329, false⟩)
      = List.replicate 31 0 ++ [255] :=
  ⟨⟨by decide, by decide, by decide, by decide⟩,
   C7_encode_decode_roundtrip (List.replicate 31 0 ++ [255]) ⟨256, 3329, false⟩
     (by decide) (by decide) (by decide) (by decide)⟩

/-- Core rounding bound for compress/decompress, over atomic variables: c is
the rounded scaling of x into [0, D], y its wrap into [0, D), x' the scaling
back, v the normalized difference, t the claimed bound ⌈q/(2D)⌉. -/
theorem cd_core (q E D c y x' v t x : Int)
    (hE : 1 ≤ E) (hq : 2 ≤ q) (hx0 : 0 ≤ x) (hxq : x < q)
    (hD : D = 2 * E)
    (hc1 : q * c ≤ D * x + q / 2) (hc2 : D * x + q / 2 < q * c + q) (hc0 : 0 ≤ c)
    (hy : y = c % D)
    (hx1 : D * x' ≤ q * y + E) (hx2 : q * y + E < D * x' + D) (hx'0 : 0 ≤ x')
    (hv : v = (x - x') % q)
    (ht1 : 2 * D * t ≤ q + 2 * D - 1) (ht2 : q + 2 * D - 1 < 2 * D * t + 2 * D)
    (ht0 : 0 ≤ t) :
    c ≤ D ∧ x' < q ∧ |if q / 2 < v then v - q else v| ≤ t := by
  have hD2 : 2 ≤ D := by omega
  have hqpos : (0 : Int) < q := by omega
  have hh1 : 2 * (q / 2) ≤ q := by omega
  have hh2 : q ≤ 2 * (q / 2) + 1 := by omega
  have hh0 : 0 ≤ q / 2 := by omega
  have hDx_le : D * x ≤ D * (q - 1) := mul_le_mul_of_nonneg_left (by omega) (by omega)
  have eDq1 : D * (q - 1) = D * q - D := by ring
  have e2Dt : 2 * (D * t) = 2 * D * t := by ring
  have hcD : c ≤ D := by
    have e1 : q * (D + 1) = D * q + q := by ring
    have h1 : q * c < q * (D + 1) := by linarith
    have := lt_of_mul_lt_mul_left h1 (by omega : (0:Int) ≤ q)
    omega
  have hy0 : 0 ≤ y := hy ▸ Int.emod_nonneg _ (by omega)
  have h2t : 2 * t ≤ q := by
    by_contra hcon
    push_neg at hcon
    have h1 : D * (q + 1) ≤ D * (2 * t) := mul_le_mul_of_nonneg_left (by omega) (by omega)
    have e1 : D * (2 * t) = 2 * D * t := by ring
    have e2 : D * (q + 1) = D * q + D := by ring
    have hprod : 0 < (D - 1) * (q - 1) := mul_pos (by omega) (by omega)
    have e3 : (D - 1) * (q - 1) = D * q - D - q + 1 := by ring
    linarith
  rcases eq_or_lt_of_le hcD with hceq | hclt
  · -- c = D wraps to y = 0 and x' = 0: x is within t of q
    have hyeq : y = 0 := by rw [hy, hceq, Int.emod_self]
    have hx'eq : x' = 0 := by
      rw [hyeq] at hx1 hx2
      simp only [mul_zero, zero_add] at hx1 hx2
      have hED : E < D := by omega
      have h1 : D * x' < D * 1 := by linarith
      have := lt_of_mul_lt_mul_left h1 (by omega : (0:Int) ≤ D)
      omega
    have hqD : q * D ≤ D * x + q / 2 := by rw [hceq] at hc1; exact hc1
    have hveq : v = x := by rw [hv, hx'eq, sub_zero, Int.emod_eq_of_lt hx0 hxq]
    have hqx_bound : D * (q - x) ≤ q / 2 := by
      have e1 : D * (q - x) = D * q - D * x := by ring
      have e2 : q * D = D * q := by ring
      linarith
    have hxgt : q / 2 < x := by
      by_contra hxc
      push_neg at hxc
      have h1 : D * (q - q / 2) ≤ D * (q - x) :=
        mul_le_mul_of_nonneg_left (by omega) (by omega)
      have h2 : 2 * (q - q / 2) ≤ D * (q - q / 2) :=
        mul_le_mul_of_nonneg_right (by omega) (by omega)
      linarith
    refine ⟨hcD, by omega, ?_⟩
    rw [hveq, if_pos hxgt, abs_le]
    constructor
    · by_contra hcc
      push_neg at hcc
      have h1 : D * (t + 1) ≤ D * (q - x) := mul_le_mul_of_nonneg_left (by omega) (by omega)
      have e1 : D * (t + 1) = D * t + D := by ring
      linarith
    · omega
  · -- c < D: y = c, the standard rounding bound
    have hyeq : y = c := by rw [hy, Int.emod_eq_of_lt hc0 hclt]
    subst hyeq
    have hx'q : x' < q := by
      have hkey : q * y + E < D * q := by
        rcases le_or_lt q E with hqE | hEq
        · linarith
        · have h1 : q * (y + 1) ≤ q * D := mul_le_mul_of_nonneg_left (by omega) (by omega)
          have e1 : q * (y + 1) = q * y + q := by ring
          have e2 : q * D = D * q := by ring
          linarith
      have h2 : D * x' < D * q := by linarith
      exact lt_of_mul_lt_mul_left h2 (by omega)
    have hub : x - x' ≤ t := by
      by_contra hcc
      push_neg at hcc
      have h1 : D * (t + 1) ≤ D * (x - x') := mul_le_mul_of_nonneg_left (by omega) (by omega)
      have e1 : D * (x - x') = D * x - D * x' := by ring
      have e2 : D * (t + 1) = D * t + D := by ring
      linarith
    have hlb : x' - x ≤ t := by
      by_contra hcc
      push_neg at hcc
      have h1 : D * (t + 1) ≤ D * (x' - x) := mul_le_mul_of_nonneg_left (by omega) (by omega)
      have e1 : D * (x' - x) = D * x' - D * x := by ring
      have e2 : D * (t + 1) = D * t + D := by ring
      linarith
    refine ⟨hcD, hx'q, ?_⟩
    have hvchar : v = x - x' ∨ v = x - x' + q := by
      rcases le_or_lt 0 (x - x') with hs | hs
      · left
        rw [hv, Int.emod_eq_of_lt hs (by omega)]
      · right
        rw [hv]
        have h1 : x - x' = (x - x' + q) + q * (-1) := by ring
        rw [h1, Int.add_mul_emod_self_left, Int.emod_eq_of_lt (by omega) (by omega)]
        ring
    by_cases hcase : q / 2 < v
    · rw [if_pos hcase, abs_le]
      rcases hvchar with hveq | hveq <;> omega
    · rw [if_neg hcase, abs_le]
      rcases hvchar with hveq | hveq <;> omega

/-- The rounding bound instantiated at the division expressions themselves. -/
theorem cd_bound (q E x : Int) (hE : 1 ≤ E) (hq : 2 ≤ q) (hx0 : 0 ≤ x) (hxq : x < q) :
    (0 ≤ (2 * E * x + q / 2) / q ∧ (2 * E * x + q / 2) / q ≤ 2 * E)
    ∧ (0 ≤ (q * ((2 * E * x + q / 2) / q % (2 * E)) + E) / (2 * E)
      ∧ (q * ((2 * E * x + q / 2) / q % (2 * E)) + E) / (2 * E) < q)
    ∧ |if q / 2 < (x - (q * ((2 * E * x + q / 2) / q % (2 * E)) + E) / (2 * E)) % q
        then (x - (q * ((2 * E * x + q / 2) / q % (2 * E)) + E) / (2 * E)) % q - q
        else (x - (q * ((2 * E * x + q / 2) / q % (2 * E)) + E) / (2 * E)) % q|
      ≤ (q + 4 * E - 1) / (4 * E) := by
  obtain ⟨c, hcdef⟩ : ∃ c, c = (2 * E * x + q / 2) / q := ⟨_, rfl⟩
  rw [← hcdef]
  obtain ⟨y, hydef⟩ : ∃ y, y = c % (2 * E) := ⟨_, rfl⟩
  rw [← hydef]
  obtain ⟨x', hxdef⟩ : ∃ x', x' = (q * y + E) / (2 * E) := ⟨_, rfl⟩
  rw [← hxdef]
  obtain ⟨v, hvdef⟩ : ∃ v, v = (x - x') % q := ⟨_, rfl⟩
  rw [← hvdef]
  obtain ⟨t, htdef⟩ : ∃ t, t = (q + 4 * E - 1) / (4 * E) := ⟨_, rfl⟩
  rw [← htdef]
  have hqpos : (0 : Int) < q := by omega
  have hnum0 : 0 ≤ 2 * E * x + q / 2 := by positivity
  have he1 := Int.ediv_add_emod (2 * E * x + q / 2) q
  have hr1a : 0 ≤ (2 * E * x + q / 2) % q := Int.emod_nonneg _ (by omega)
  have hr1b : (2 * E * x + q / 2) % q < q := Int.emod_lt_of_pos _ hqpos
  rw [← hcdef] at he1
  have hc1 : q * c ≤ 2 * E * x + q / 2 := by linarith
  have hc2 : 2 * E * x + q / 2 < q * c + q := by linarith
  have hc0 : 0 ≤ c := hcdef ▸ Int.ediv_nonneg hnum0 (by omega)
  have hy0 : 0 ≤ y := hydef ▸ Int.emod_nonneg _ (by omega)
  have hnum2 : 0 ≤ q * y + E := by positivity
  have he2 := Int.ediv_add_emod (q * y + E) (2 * E)
  have hr2a : 0 ≤ (q * y + E) % (2 * E) := Int.emod_nonneg _ (by omega)
  have hr2b : (q * y + E) % (2 * E) < 2 * E := Int.emod_lt_of_pos _ (by omega)
  rw [← hxdef] at he2
  have hx1 : 2 * E * x' ≤ q * y + E := by linarith
  have hx2 : q * y + E < 2 * E * x' + 2 * E := by linarith
  have hx'0 : 0 ≤ x' := hxdef ▸ Int.ediv_nonneg hnum2 (by omega)
  have he3 := Int.ediv_add_emod (q + 4 * E - 1) (4 * E)
  have hr3a : 0 ≤ (q + 4 * E - 1) % (4 * E) := Int.emod_nonneg _ (by omega)
  have hr3b : (q + 4 * E - 1) % (4 * E) < 4 * E := Int.emod_lt_of_pos _ (by omega)
  rw [← htdef] at he3
  have ht1 : 2 * (2 * E) * t ≤ q + 2 * (2 * E) - 1 := by linarith
  have ht2 : q + 2 * (2 * E) - 1 < 2 * (2 * E) * t + 2 * (2 * E) := by linarith
  have ht0 : 0 ≤ t := htdef ▸ Int.ediv_nonneg (by omega) (by omega)
  obtain ⟨hcD, hx'q, habs⟩ := cd_core q E (2 * E) c y x' v t x hE hq hx0 hxq rfl
    hc1 hc2 hc0 hydef hx1 hx2 hx'0 hvdef ht1 ht2 ht0
  exact ⟨⟨hc0, hcD⟩, ⟨hx'0, hx'q⟩, habs⟩

/-- An infinity-norm fold stays below t when the accumulator starts below t
and every centered coefficient is below t in absolute value. -/
theorem foldl_max_abs_le (q qh t : Int) :
    ∀ (l : List ZqElement) (acc : Int), acc ≤ t →
      (∀ c ∈ l, |if qh < c.value then c.value - q else c.value| ≤ t) →
      l.foldl (fun max_norm c =>
        let val := c.value
        let centered_val := if qh < val then val - q else val
        let abs_val := |centered_val|
        if max_norm < abs_val then abs_val else max_norm) acc ≤ t := by
  intro l
  induction l with
  | nil =>
    intro acc hacc _
    simpa using hacc
  | cons c rest ih =>
    intro acc hacc hmem
    simp only [List.foldl_cons]
    apply ih
    · dsimp only
      by_cases hlt : acc < |if qh < c.value then c.value - q else c.value|
      · rw [if_pos hlt]
        exact hmem c (by simp)
      · rw [if_neg hlt]
        exact hacc
    · intro c' hc'
      exact hmem c' (by simp [hc'])

/-- The infinity norm is bounded by any bound on all centered coefficients. -/
theorem infinity_norm_le (p : Polynomial) (t : Int) (ht : 0 ≤ t)
    (hc : ∀ c ∈ p.coeffs,
      |if Int.tdiv p.modulus_info.q 2 < c.value then c.value - p.modulus_info.q
        else c.value| ≤ t) :
    p.infinity_norm ≤ t :=
  foldl_max_abs_le p.modulus_info.q (Int.tdiv p.modulus_info.q 2) t p.coeffs 0 ht hc

/-- C6: for every polynomial with well-formed coefficients modulo q and every
bit width d with 1 ≤ d ≤ 30 and q ≤ 2^30 (so that 2^d and all intermediate
products fit the machine integers used), the infinity norm over centered
representatives of p − decompress(compress(p, d), q) is at most
⌈q / 2^(d+1)⌉. -/
theorem C6_compress_decompress_norm_bound (p : Polynomial) (d : Nat)
    (hd1 : 1 ≤ d) (hd30 : d ≤ 30)
    (hq2 : 2 ≤ p.modulus_info.q) (hqb : p.modulus_info.q ≤ 2 ^ 30)
    (hwf : ∀ c ∈ p.coeffs,
      c.q = p.modulus_info.q ∧ 0 ≤ c.value ∧ c.value < p.modulus_info.q) :
    (p.sub ((p.compress d).decompress p.modulus_info.q)).infinity_norm
      ≤ (p.modulus_info.q + 2 ^ (d + 1) - 1) / 2 ^ (d + 1) := by
  obtain ⟨e, rfl⟩ : ∃ e, d = e + 1 := ⟨d - 1, by omega⟩
  have h2pos : (0:Int) < 2 ^ e := pow_pos (by norm_num) e
  have hE1 : (1:Int) ≤ 2 ^ e := by omega
  have hpow1 : (2:Int) ^ (e + 1) = 2 * 2 ^ e := by rw [pow_succ]; ring
  have hpow2 : (2:Int) ^ (e + 1 + 1) = 4 * 2 ^ e := by rw [pow_succ, pow_succ]; ring
  have h30 : (2:Int) ^ 30 = 1073741824 := by norm_num
  have hEb : (2:Int) * 2 ^ e ≤ 1073741824 := by
    rw [← hpow1, ← h30]
    exact pow_le_pow_right₀ (by norm_num) (by omega)
  have hqlit : p.modulus_info.q ≤ 1073741824 := h30 ▸ hqb
  have hmodinfo : (p.sub ((p.compress (e + 1)).decompress p.modulus_info.q)).modulus_info
      = p.modulus_info := rfl
  apply infinity_norm_le
  · refine Int.ediv_nonneg ?_ (by positivity)
    have := pow_pos (show (0:Int) < 2 by norm_num) (e + 1 + 1)
    omega
  · intro c0 hc0mem
    rw [hmodinfo]
    have hsubc : (p.sub ((p.compress (e + 1)).decompress p.modulus_info.q)).coeffs
        = p.coeffs.map (fun c => ZqElement.sub c
            (ZqElement.new (wrap32 (Int.tdiv (p.modulus_info.q *
                (ZqElement.new (wrap32 (Int.tdiv ((2:Int) ^ (e + 1) * c.value
                    + p.modulus_info.q / 2) p.modulus_info.q)) ((2:Int) ^ (e + 1))).value
              + ((2:Int) ^ (e + 1) / 2)) ((2:Int) ^ (e + 1)))) p.modulus_info.q)) := by
      show List.zipWith ZqElement.sub p.coeffs
        (List.map (fun c' => ZqElement.new (wrap32 (Int.tdiv (p.modulus_info.q * c'.value
            + ((2:Int) ^ (e + 1) / 2)) ((2:Int) ^ (e + 1)))) p.modulus_info.q)
          (List.map (fun c => ZqElement.new (wrap32 (Int.tdiv ((2:Int) ^ (e + 1) * c.value
            + p.modulus_info.q / 2) p.modulus_info.q)) ((2:Int) ^ (e + 1))) p.coeffs)) = _
      rw [List.map_map, List.zipWith_map_right, List.zipWith_same]
      rfl
    rw [hsubc] at hc0mem
    obtain ⟨c, hcmem, rfl⟩ := List.mem_map.mp hc0mem
    obtain ⟨hcq, hx0, hxq⟩ := hwf c hcmem
    obtain ⟨⟨hcc0, hccD⟩, ⟨hx'0, hx'q⟩, habs⟩ :=
      cd_bound p.modulus_info.q (2 ^ e) c.value hE1 hq2 hx0 hxq
    have htd1 : Int.tdiv ((2:Int) ^ (e + 1) * c.value + p.modulus_info.q / 2) p.modulus_info.q
        = (2 * 2 ^ e * c.value + p.modulus_info.q / 2) / p.modulus_info.q := by
      rw [hpow1]
      exact Int.tdiv_eq_ediv (by positivity) (by omega)
    have hA : (ZqElement.new (wrap32 (Int.tdiv ((2:Int) ^ (e + 1) * c.value
        + p.modulus_info.q / 2) p.modulus_info.q)) ((2:Int) ^ (e + 1))).value
        = (2 * 2 ^ e * c.value + p.modulus_info.q / 2) / p.modulus_info.q % (2 * 2 ^ e) := by
      show ZqElement.normalize (wrap32 (Int.tdiv ((2:Int) ^ (e + 1) * c.value
        + p.modulus_info.q / 2) p.modulus_info.q)) ((2:Int) ^ (e + 1)) = _
      rw [htd1, wrap32_eq_self (by unfold i32Half; linarith) (by unfold i32Half; linarith),
        ZqElement.normalize_eq_emod _ (by rw [hpow1]; omega), hpow1]
    have htd2 : Int.tdiv (p.modulus_info.q *
        ((2 * 2 ^ e * c.value + p.modulus_info.q / 2) / p.modulus_info.q % (2 * 2 ^ e))
        + ((2:Int) ^ (e + 1) / 2)) ((2:Int) ^ (e + 1))
        = (p.modulus_info.q *
          ((2 * 2 ^ e * c.value + p.modulus_info.q / 2) / p.modulus_info.q % (2 * 2 ^ e))
          + 2 ^ e) / (2 * 2 ^ e) := by
      rw [hpow1, Int.mul_ediv_cancel_left _ (by norm_num : (2:Int) ≠ 0)]
      refine Int.tdiv_eq_ediv ?_ (by positivity)
      have hmod0 : 0 ≤ (2 * 2 ^ e * c.value + p.modulus_info.q / 2) / p.modulus_info.q
          % (2 * 2 ^ e) := Int.emod_nonneg _ (by omega)
      have := mul_nonneg (show (0:Int) ≤ p.modulus_info.q by omega) hmod0
      omega
    have hB : (ZqElement.new (wrap32 (Int.tdiv (p.modulus_info.q *
        (ZqElement.new (wrap32 (Int.tdiv ((2:Int) ^ (e + 1) * c.value
            + p.modulus_info.q / 2) p.modulus_info.q)) ((2:Int) ^ (e + 1))).value
        + ((2:Int) ^ (e + 1) / 2)) ((2:Int) ^ (e + 1)))) p.modulus_info.q).value
        = (p.modulus_info.q *
          ((2 * 2 ^ e * c.value + p.modulus_info.q / 2) / p.modulus_info.q % (2 * 2 ^ e))
          + 2 ^ e) / (2 * 2 ^ e) := by
      rw [hA]
      show ZqElement.normalize (wrap32 (Int.tdiv (p.modulus_info.q *
        ((2 * 2 ^ e * c.value + p.modulus_info.q / 2) / p.modulus_info.q % (2 * 2 ^ e))
        + ((2:Int) ^ (e + 1) / 2)) ((2:Int) ^ (e + 1)))) p.modulus_info.q = _
      rw [htd2, wrap32_eq_self (by unfold i32Half; linarith) (by unfold i32Half; linarith),
        ZqElement.normalize_eq_emod _ (by omega), Int.emod_eq_of_lt hx'0 hx'q]
    have hkey : (ZqElement.sub c (ZqElement.new (wrap32 (Int.tdiv (p.modulus_info.q *
        (ZqElement.new (wrap32 (Int.tdiv ((2:Int) ^ (e + 1) * c.value
            + p.modulus_info.q / 2) p.modulus_info.q)) ((2:Int) ^ (e + 1))).value
        + ((2:Int) ^ (e + 1) / 2)) ((2:Int) ^ (e + 1)))) p.modulus_info.q)).value
        = (c.value - (p.modulus_info.q *
          ((2 * 2 ^ e * c.value + p.modulus_info.q / 2) / p.modulus_info.q % (2 * 2 ^ e))
          + 2 ^ e) / (2 * 2 ^ e)) % p.modulus_info.q := by
      show ZqElement.normalize _ c.q = _
      rw [hB, hcq, ZqElement.normalize_eq_emod _ (by omega)]
    rw [hkey, Int.tdiv_eq_ediv (by omega) (by norm_num), hpow2]
    exact habs

/-- C6 witness: a concrete one-coefficient polynomial over the Kyber modulus
at d = 10. -/
theorem C6_witness :
    (1 ≤ 10 ∧ 10 ≤ 30
      ∧ 2 ≤ (⟨[ZqElement.new 1000 3329], ⟨1, 3329, false⟩⟩ : Polynomial).modulus_info.q
      ∧ (⟨[ZqElement.new 1000 3329], ⟨1, 3329, false⟩⟩ : Polynomial).modulus_info.q ≤ 2 ^ 30
      ∧ ∀ c ∈ (⟨[ZqElement.new 1000 3329], ⟨1, 3329, false⟩⟩ : Polynomial).coeffs,
          c.q = 3329 ∧ 0 ≤ c.value ∧ c.value < 3329)
    ∧ ((⟨[ZqElement.new 1000 3329], ⟨1, 3329, false⟩⟩ : Polynomial).sub
        (((⟨[ZqElement.new 1000 3329], ⟨1, 3329, false⟩⟩ : Polynomial).compress 10).decompress
          3329)).infinity_norm
      ≤ (3329 + 2 ^ 11 - 1) / 2 ^ 11 :=
  ⟨⟨by decide, by decide, by decide, by decide, by decide⟩,
   C6_compress_decompress_norm_bound ⟨[ZqElement.new 1000 3329], ⟨1, 3329, false⟩⟩ 10
     (by decide) (by decide) (by decide) (by decide) (by decide)⟩

/-- Bit j of a left fold of bitwise ORs. -/
theorem testBit_foldl_or (l : List Nat) (f : Nat → Nat) (a : Nat) (j : Nat) :
    (l.foldl (fun r x => r ||| f x) a).testBit j =
      (a.testBit j || l.any (fun x => (f x).testBit j)) := by
  induction l generalizing a with
  | nil => simp
  | cons x xs ih =>
      simp only [List.foldl_cons, List.any_cons, ih, Nat.testBit_or, Bool.or_assoc]

/-- The bits of the literal one. -/
theorem testBit_one_nat (t : Nat) : (1 : Nat).testBit t = decide (t = 0) := by
  cases t with
  | zero => decide
  | succ t =>
      rw [Nat.testBit_to_div_mod]
      have h : 1 / 2 ^ (t + 1) = 0 :=
        Nat.div_eq_of_lt (Nat.one_lt_two_pow (by omega))
      simp [h]

/-- Bit j of `bit_reverse i bits` is bit (bits - 1 - j) of i, for j < bits. -/
theorem testBit_bit_reverse (i bits j : Nat) :
    (bit_reverse i bits).testBit j = (decide (j < bits) && i.testBit (bits - 1 - j)) := by
  unfold bit_reverse
  rw [testBit_foldl_or, Nat.zero_testBit, Bool.false_or, Bool.eq_iff_iff]
  simp only [List.any_eq_true, List.mem_range, Nat.testBit_shiftLeft,
    Nat.testBit_and, Nat.testBit_shiftRight, testBit_one_nat, Bool.and_eq_true,
    decide_eq_true_eq, ge_iff_le]
  constructor
  · rintro ⟨k, hk, hle, hbit, hz⟩
    have hk0 : k + (j - (bits - 1 - k)) = k := by omega
    rw [hk0] at hbit
    refine ⟨by omega, ?_⟩
    rw [show bits - 1 - j = k by omega]
    exact hbit
  · rintro ⟨hj, hbit⟩
    refine ⟨bits - 1 - j, by omega, by omega, ?_, by omega⟩
    rw [show bits - 1 - j + (j - (bits - 1 - (bits - 1 - j))) = bits - 1 - j by omega]
    exact hbit

/-- `bit_reverse` lands inside [0, 2^m). -/
theorem bit_reverse_lt (i m : Nat) : bit_reverse i m < 2 ^ m := by
  have h : bit_reverse i m = bit_reverse i m &&& (2 ^ m - 1) := by
    apply Nat.eq_of_testBit_eq
    intro j
    rw [Nat.testBit_and, Nat.testBit_two_pow_sub_one, testBit_bit_reverse]
    by_cases hj : j < m
    · simp [hj]
    · simp [hj]
  have h2 : bit_reverse i m &&& (2 ^ m - 1) ≤ 2 ^ m - 1 := Nat.and_le_right
  have h3 : 0 < 2 ^ m := Nat.two_pow_pos m
  omega

/-- `bit_reverse` is an involution on [0, 2^m). -/
theorem bit_reverse_involutive {i m : Nat} (h : i < 2 ^ m) :
    bit_reverse (bit_reverse i m) m = i := by
  apply Nat.eq_of_testBit_eq
  intro j
  rw [testBit_bit_reverse, testBit_bit_reverse]
  by_cases hj : j < m
  · rw [show m - 1 - (m - 1 - j) = j by omega]
    simp [hj, show m - 1 - j < m by omega]
  · rw [decide_eq_false hj, Bool.false_and]
    symm
    apply Nat.testBit_lt_two_pow
    calc i < 2 ^ m := h
      _ ≤ 2 ^ j := Nat.pow_le_pow_right (by omega) (by omega)

/-- `log2_fuel` computes the exponent of a power of two, given enough fuel. -/
theorem log2_fuel_pow (m : Nat) : ∀ fuel, 2 ^ m ≤ fuel → log2_fuel fuel (2 ^ m) = m := by
  induction m with
  | zero =>
      intro fuel _
      cases fuel with
      | zero => rfl
      | succ f => simp [log2_fuel]
  | succ m ih =>
      intro fuel hf
      have h1 : 1 ≤ fuel := le_trans (Nat.one_le_two_pow) hf
      obtain ⟨f, rfl⟩ : ∃ f, fuel = f + 1 := ⟨fuel - 1, by omega⟩
      have h2 : (2 : Nat) ≤ 2 ^ (m + 1) := by
        calc (2 : Nat) = 2 ^ 1 := rfl
        _ ≤ 2 ^ (m + 1) := Nat.pow_le_pow_right (by omega) (by omega)
      have h3 : 2 ^ (m + 1) / 2 = 2 ^ m := by
        rw [pow_succ]
        exact Nat.mul_div_cancel _ (by omega)
      have h4 : 2 ^ m ≤ f := by
        have h5 : 2 ^ (m + 1) = 2 ^ m + 2 ^ m := by rw [pow_succ]; omega
        have h6 : 1 ≤ 2 ^ m := Nat.one_le_two_pow
        omega
      simp only [log2_fuel, if_pos h2, h3, ih f h4]

/-- `nat_log2` recovers the exponent of a power of two. -/
theorem nat_log2_pow (m : Nat) : nat_log2 (2 ^ m) = m :=
  log2_fuel_pow m (2 ^ m) le_rfl

/-- Two coefficients with equal fields are equal. -/
theorem ZqElement.ext_vq {a b : ZqElement} (hv : a.value = b.value) (hq : a.q = b.q) :
    a = b := by
  cases a; cases b; simp_all

/-- The representative produced by `ZqElement.new` for a positive modulus. -/
theorem ZqElement.new_value (v : Int) {q : Int} (hq : 0 < q) :
    (ZqElement.new v q).value = v % q := by
  simp [ZqElement.new, ZqElement.normalize_eq_emod v hq]

/-- The modulus field produced by `ZqElement.new`. -/
theorem ZqElement.new_q (v q : Int) : (ZqElement.new v q).q = q := rfl

/-- The representative produced by addition, for a positive modulus. -/
theorem ZqElement.add_value (a b : ZqElement) (hq : 0 < a.q) :
    (ZqElement.add a b).value = (a.value + b.value) % a.q :=
  ZqElement.new_value _ hq

/-- The modulus field produced by addition. -/
theorem ZqElement.add_q (a b : ZqElement) : (ZqElement.add a b).q = a.q := rfl

/-- The representative produced by subtraction, for a positive modulus. -/
theorem ZqElement.sub_value (a b : ZqElement) (hq : 0 < a.q) :
    (ZqElement.sub a b).value = (a.value - b.value) % a.q :=
  ZqElement.new_value _ hq

/-- The modulus field produced by subtraction. -/
theorem ZqElement.sub_q (a b : ZqElement) : (ZqElement.sub a b).q = a.q := rfl

/-- The representative produced by multiplication, for a positive modulus. -/
theorem ZqElement.mul_value (a b : ZqElement) (hq : 0 < a.q) :
    (ZqElement.mul a b).value = wrap32 (a.value * b.value) % a.q :=
  ZqElement.new_value _ hq

/-- The modulus field produced by multiplication. -/
theorem ZqElement.mul_q (a b : ZqElement) : (ZqElement.mul a b).q = a.q := rfl

/-- A reduced left factor can be dropped under the outer reduction. -/
theorem emod_mul_left_emod (x y q : Int) : ((x % q) * y) % q = (x * y) % q := by
  rw [Int.mul_emod, Int.emod_emod_of_dvd _ dvd_rfl, ← Int.mul_emod]

/-- A reduced right factor can be dropped under the outer reduction. -/
theorem emod_mul_right_emod (x y q : Int) : (x * (y % q)) % q = (x * y) % q := by
  rw [Int.mul_emod, Int.emod_emod_of_dvd _ dvd_rfl, ← Int.mul_emod]

/-- `getD` on a mapped list at an in-range index. -/
theorem getD_map_lt (f : ZqElement → ZqElement) (c : List ZqElement) (idx : Nat)
    (h : idx < c.length) (d : ZqElement) :
    (c.map f).getD idx d = f (c.getD idx d) := by
  rw [List.getD_eq_getElem _ _ (by simpa using h), List.getD_eq_getElem _ _ h,
    List.getElem_map]

/-- A forward stage preserves the list length. -/
theorem ntt_stage_length (roots : List Int) (q : Int) (len : Nat) (c : List ZqElement) :
    (ntt_stage roots q len c).length = c.length := by
  simp [ntt_stage]

/-- An inverse stage preserves the list length. -/
theorem intt_stage_length (inv_roots : List Int) (q : Int) (len : Nat)
    (c : List ZqElement) :
    (intt_stage inv_roots q len c).length = c.length := by
  simp [intt_stage]

/-- The bit-reversal permutation preserves the list length. -/
theorem bit_reverse_permute_length (c : List ZqElement) (log_n : Nat) :
    (bit_reverse_permute c log_n).length = c.length := by
  simp [bit_reverse_permute]

/-- `double_iter` preserves the list length. -/
theorem double_iter_length (M : Nat) (c : List ZqElement) :
    (double_iter M c).length = c.length := by
  induction M with
  | zero => rfl
  | succ M ih => simp [double_iter, ih]

/-- Slot idx of a forward stage, described by the pair it was computed from. -/
theorem ntt_stage_getD (roots : List Int) (q : Int) (len : Nat) (c : List ZqElement)
    (idx : Nat) (h : idx < c.length) :
    (ntt_stage roots q len c).getD idx (zq0 0) =
      (if idx % len < len / 2 then
        ZqElement.add (c.getD idx (zq0 0))
          (ZqElement.mul (c.getD (idx + len / 2) (zq0 0))
            (ZqElement.new (roots.getD (len / 2 + idx % len) 0) q))
      else
        ZqElement.sub (c.getD (idx - len / 2) (zq0 0))
          (ZqElement.mul (c.getD idx (zq0 0))
            (ZqElement.new (roots.getD (len / 2 + (idx % len - len / 2)) 0) q))) := by
  rw [List.getD_eq_getElem _ _ (by simpa [ntt_stage_length] using h)]
  simp [ntt_stage]

/-- Slot idx of an inverse stage, described by the pair it was computed from. -/
theorem intt_stage_getD (inv_roots : List Int) (q : Int) (len : Nat)
    (c : List ZqElement) (idx : Nat) (h : idx < c.length) :
    (intt_stage inv_roots q len c).getD idx (zq0 0) =
      (if idx % len < len / 2 then
        ZqElement.add (c.getD idx (zq0 0)) (c.getD (idx + len / 2) (zq0 0))
      else
        ZqElement.mul
          (ZqElement.sub (c.getD (idx - len / 2) (zq0 0)) (c.getD idx (zq0 0)))
          (ZqElement.new (inv_roots.getD (len / 2 + (idx % len - len / 2)) 0) q)) := by
  rw [List.getD_eq_getElem _ _ (by simpa [intt_stage_length] using h)]
  simp [intt_stage]

/-- The i64 product of two representatives below a modulus of at most 46340
stays inside i32 range, so the `as i32` cast is the identity on it. -/
theorem wrap32_mul_small {q x y : Int} (hqb : q ≤ 46340) (hx0 : 0 ≤ x) (hx1 : x < q)
    (hy0 : 0 ≤ y) (hy1 : y < q) : wrap32 (x * y) = x * y := by
  have h1 : (0 : Int) ≤ x * y := mul_nonneg hx0 hy0
  have h2 : x * y ≤ 46339 * 46339 := mul_le_mul (by omega) (by omega) hy0 (by norm_num)
  have h3 : i32Half = 2147483648 := rfl
  apply wrap32_eq_self
  · omega
  · omega

/-- `ZqElement.new` is well-formed for a positive modulus. -/
theorem ZqElement.new_wf (v : Int) {q : Int} (hq : 0 < q) :
    (ZqElement.new v q).q = q ∧ 0 ≤ (ZqElement.new v q).value ∧
      (ZqElement.new v q).value < q := by
  rw [ZqElement.new_value _ hq]
  exact ⟨rfl, Int.emod_nonneg _ (ne_of_gt hq), Int.emod_lt_of_pos _ hq⟩

/-- Addition is well-formed when its left operand carries the modulus. -/
theorem ZqElement.add_wf (a b : ZqElement) {q : Int} (ha : a.q = q) (hq : 0 < q) :
    (ZqElement.add a b).q = q ∧ 0 ≤ (ZqElement.add a b).value ∧
      (ZqElement.add a b).value < q := by
  have h : ZqElement.add a b = ZqElement.new (a.value + b.value) q := by
    unfold ZqElement.add
    rw [ha]
  rw [h]
  exact ZqElement.new_wf _ hq

/-- Subtraction is well-formed when its left operand carries the modulus. -/
theorem ZqElement.sub_wf (a b : ZqElement) {q : Int} (ha : a.q = q) (hq : 0 < q) :
    (ZqElement.sub a b).q = q ∧ 0 ≤ (ZqElement.sub a b).value ∧
      (ZqElement.sub a b).value < q := by
  have h : ZqElement.sub a b = ZqElement.new (a.value - b.value) q := by
    unfold ZqElement.sub
    rw [ha]
  rw [h]
  exact ZqElement.new_wf _ hq

/-- Multiplication is well-formed when its left operand carries the modulus. -/
theorem ZqElement.mul_wf (a b : ZqElement) {q : Int} (ha : a.q = q) (hq : 0 < q) :
    (ZqElement.mul a b).q = q ∧ 0 ≤ (ZqElement.mul a b).value ∧
      (ZqElement.mul a b).value < q := by
  have h : ZqElement.mul a b = ZqElement.new (wrap32 (a.value * b.value)) q := by
    unfold ZqElement.mul
    rw [ha]
  rw [h]
  exact ZqElement.new_wf _ hq

/-- Decimation-in-time then decimation-in-frequency on an even slot: the
twiddled term cancels and the slot is doubled. -/
theorem butterfly_even_cancel (a t : ZqElement) {q : Int} (ha : a.q = q) (hq : 0 < q) :
    ZqElement.add (ZqElement.add a t) (ZqElement.sub a t) = zq_double a := by
  have hqa : 0 < a.q := by rw [ha]; exact hq
  have hq' : 0 < (ZqElement.add a t).q := by rw [ZqElement.add_q]; exact hqa
  apply ZqElement.ext_vq
  · rw [ZqElement.add_value _ _ hq', ZqElement.add_q, ZqElement.add_value _ _ hqa,
      ZqElement.sub_value _ _ hqa, ← Int.add_emod]
    unfold zq_double
    rw [ZqElement.add_value _ _ hqa]
    congr 1
    ring
  · rfl

/-- Decimation-in-time then decimation-in-frequency on an odd slot: the plain
terms cancel, the forward twiddle is undone by the inverse twiddle, and the
slot is doubled. -/
theorem butterfly_odd_cancel (a b w wi : ZqElement) {q : Int}
    (ha : a.q = q) (hb : b.q = q) (hq : 0 < q) (hqb : q ≤ 46340)
    (hbv0 : 0 ≤ b.value) (hbv1 : b.value < q)
    (hwv0 : 0 ≤ w.value) (hwv1 : w.value < q)
    (hwiv0 : 0 ≤ wi.value) (hwiv1 : wi.value < q)
    (hinv : (w.value * wi.value) % q = 1) :
    ZqElement.mul
      (ZqElement.sub (ZqElement.add a (ZqElement.mul b w))
        (ZqElement.sub a (ZqElement.mul b w))) wi =
      zq_double b := by
  have hqb' : 0 < b.q := by rw [hb]; exact hq
  have hqa : 0 < a.q := by rw [ha]; exact hq
  have haq : 0 < (ZqElement.add a (ZqElement.mul b w)).q := by
    rw [ZqElement.add_q]; exact hqa
  have ht : (ZqElement.mul b w).value = (b.value * w.value) % q := by
    rw [ZqElement.mul_value b w hqb', wrap32_mul_small hqb hbv0 hbv1 hwv0 hwv1, hb]
  have hD : (ZqElement.sub (ZqElement.add a (ZqElement.mul b w))
      (ZqElement.sub a (ZqElement.mul b w))).value =
      (2 * ((b.value * w.value) % q)) % q := by
    rw [ZqElement.sub_value _ _ haq, ZqElement.add_q, ZqElement.add_value _ _ hqa,
      ZqElement.sub_value _ _ hqa, ha, ← Int.sub_emod, ht]
    congr 1
    ring
  have hDq : (ZqElement.sub (ZqElement.add a (ZqElement.mul b w))
      (ZqElement.sub a (ZqElement.mul b w))).q = q := by
    rw [ZqElement.sub_q, ZqElement.add_q, ha]
  apply ZqElement.ext_vq
  · rw [ZqElement.mul_value _ _ (by rw [hDq]; exact hq), hDq, hD,
      wrap32_mul_small hqb (Int.emod_nonneg _ (ne_of_gt hq)) (Int.emod_lt_of_pos _ hq)
        hwiv0 hwiv1,
      emod_mul_left_emod,
      show (2 * ((b.value * w.value) % q)) * wi.value
        = ((b.value * w.value) % q) * (2 * wi.value) from by ring,
      emod_mul_left_emod,
      show (b.value * w.value) * (2 * wi.value)
        = (2 * b.value) * (w.value * wi.value) from by ring,
      ← emod_mul_right_emod, hinv, mul_one]
    unfold zq_double
    rw [ZqElement.add_value _ _ hqb', hb]
    congr 1
    ring
  · unfold zq_double
    rw [ZqElement.mul_q, hDq, ZqElement.add_q, hb]

/-- Doubling passes through the addition of an inverse stage's even slot. -/
theorem add_double_double (a b : ZqElement) {q : Int} (ha : a.q = q) (hb : b.q = q)
    (hq : 0 < q) :
    ZqElement.add (zq_double a) (zq_double b) = zq_double (ZqElement.add a b) := by
  have hqa : 0 < a.q := by rw [ha]; exact hq
  have hqb' : 0 < b.q := by rw [hb]; exact hq
  apply ZqElement.ext_vq
  · unfold zq_double
    rw [ZqElement.add_value (ZqElement.add a a) (ZqElement.add b b)
        (by rw [ZqElement.add_q]; exact hqa),
      ZqElement.add_value (ZqElement.add a b) (ZqElement.add a b)
        (by rw [ZqElement.add_q]; exact hqa),
      ZqElement.add_value a a hqa, ZqElement.add_value b b hqb',
      ZqElement.add_value a b hqa, ZqElement.add_q, ZqElement.add_q, ha, hb,
      ← Int.add_emod, ← Int.add_emod]
    congr 1
    ring
  · rfl

/-- Doubling passes through the addition of an even slot whose partner index
fell outside the list (the out-of-range default has representative zero). -/
theorem add_double_zq0 (a : ZqElement) {q : Int} (ha : a.q = q) (hq : 0 < q) :
    ZqElement.add (zq_double a) (zq0 0) = zq_double (ZqElement.add a (zq0 0)) := by
  have hqa : 0 < a.q := by rw [ha]; exact hq
  have h0 : (zq0 0).value = 0 := by decide
  apply ZqElement.ext_vq
  · unfold zq_double
    rw [ZqElement.add_value (ZqElement.add a a) (zq0 0)
        (by rw [ZqElement.add_q]; exact hqa),
      ZqElement.add_q, h0, add_zero, ZqElement.add_value a a hqa,
      Int.emod_emod_of_dvd _ dvd_rfl,
      ZqElement.add_value (ZqElement.add a (zq0 0)) (ZqElement.add a (zq0 0))
        (by rw [ZqElement.add_q]; exact hqa),
      ZqElement.add_q, ZqElement.add_value a (zq0 0) hqa, h0, add_zero,
      ← Int.add_emod]
  · rfl

/-- Doubling passes through the twiddled difference of an inverse stage's odd
slot. -/
theorem mul_sub_double (a b w : ZqElement) {q : Int} (ha : a.q = q) (hb : b.q = q)
    (hq : 0 < q) (hqb : q ≤ 46340) (hwv0 : 0 ≤ w.value) (hwv1 : w.value < q) :
    ZqElement.mul (ZqElement.sub (zq_double a) (zq_double b)) w =
      zq_double (ZqElement.mul (ZqElement.sub a b) w) := by
  have hqa : 0 < a.q := by rw [ha]; exact hq
  have hqb' : 0 < b.q := by rw [hb]; exact hq
  have hD : (ZqElement.sub (ZqElement.add a a) (ZqElement.add b b)).value =
      ((a.value + a.value) - (b.value + b.value)) % q := by
    rw [ZqElement.sub_value _ _ (by rw [ZqElement.add_q]; exact hqa), ZqElement.add_q,
      ZqElement.add_value a a hqa, ZqElement.add_value b b hqb', ha, hb,
      ← Int.sub_emod]
  have hDq : (ZqElement.sub (ZqElement.add a a) (ZqElement.add b b)).q = q := by
    rw [ZqElement.sub_q, ZqElement.add_q, ha]
  have hE : (ZqElement.mul (ZqElement.sub a b) w).value =
      ((a.value - b.value) * w.value) % q := by
    rw [ZqElement.mul_value _ _ (by rw [ZqElement.sub_q]; exact hqa), ZqElement.sub_q,
      ZqElement.sub_value a b hqa, ha,
      wrap32_mul_small hqb (Int.emod_nonneg _ (ne_of_gt hq)) (Int.emod_lt_of_pos _ hq)
        hwv0 hwv1,
      emod_mul_left_emod]
  apply ZqElement.ext_vq
  · unfold zq_double
    rw [ZqElement.mul_value _ _ (by rw [hDq]; exact hq), hDq, hD,
      wrap32_mul_small hqb (Int.emod_nonneg _ (ne_of_gt hq)) (Int.emod_lt_of_pos _ hq)
        hwv0 hwv1,
      emod_mul_left_emod,
      ZqElement.add_value (ZqElement.mul (ZqElement.sub a b) w)
        (ZqElement.mul (ZqElement.sub a b) w)
        (by rw [ZqElement.mul_q, ZqElement.sub_q]; exact hqa),
      ZqElement.mul_q, ZqElement.sub_q, ha, hE, ← Int.add_emod]
    congr 1
    ring
  · unfold zq_double
    rw [ZqElement.mul_q, hDq, ZqElement.add_q, ZqElement.mul_q, ZqElement.sub_q, ha]

/-- A forward stage outputs well-formed coefficients whenever the input
coefficients carry the stage's modulus. -/
theorem ntt_stage_wf (roots : List Int) {q : Int} (len : Nat) (c : List ZqElement)
    (hq : 0 < q) (hwfq : ∀ x ∈ c, x.q = q) : ZqWF q (ntt_stage roots q len c) := by
  intro x hx
  simp only [ntt_stage, List.mem_map, List.mem_range] at hx
  obtain ⟨idx, hidx, rfl⟩ := hx
  have hmem : ∀ k, k < c.length → (c.getD k (zq0 0)).q = q := by
    intro k hk
    rw [List.getD_eq_getElem _ _ hk]
    exact hwfq _ (List.getElem_mem _)
  by_cases hb : idx % len < len / 2
  · simp only [if_pos hb]
    exact ZqElement.add_wf _ _ (hmem idx hidx) hq
  · simp only [if_neg hb]
    exact ZqElement.sub_wf _ _ (hmem _ (by omega)) hq

/-- An inverse stage outputs well-formed coefficients whenever the input
coefficients carry the stage's modulus. -/
theorem intt_stage_wf (inv_roots : List Int) {q : Int} (len : Nat)
    (c : List ZqElement) (hq : 0 < q) (hwfq : ∀ x ∈ c, x.q = q) :
    ZqWF q (intt_stage inv_roots q len c) := by
  intro x hx
  simp only [intt_stage, List.mem_map, List.mem_range] at hx
  obtain ⟨idx, hidx, rfl⟩ := hx
  have hmem : ∀ k, k < c.length → (c.getD k (zq0 0)).q = q := by
    intro k hk
    rw [List.getD_eq_getElem _ _ hk]
    exact hwfq _ (List.getElem_mem _)
  by_cases hb : idx % len < len / 2
  · simp only [if_pos hb]
    exact ZqElement.add_wf _ _ (hmem idx hidx) hq
  · simp only [if_neg hb]
    have hsq : (ZqElement.sub (c.getD (idx - len / 2) (zq0 0))
        (c.getD idx (zq0 0))).q = q := by
      rw [ZqElement.sub_q]
      exact hmem _ (by omega)
    exact ZqElement.mul_wf _ _ hsq hq

/-- The bit-reversal permutation of a well-formed power-of-two-length list is
well-formed. -/
theorem bit_reverse_permute_wf {q : Int} {m : Nat} (c : List ZqElement)
    (hlen : c.length = 2 ^ m) (hwf : ZqWF q c) : ZqWF q (bit_reverse_permute c m) := by
  intro x hx
  simp only [bit_reverse_permute, List.mem_map, List.mem_range] at hx
  obtain ⟨i, hi, rfl⟩ := hx
  have hb : bit_reverse i m < c.length := by
    rw [hlen]
    exact bit_reverse_lt i m
  rw [List.getD_eq_getElem _ _ hb]
  exact hwf _ (List.getElem_mem _)

/-- A fold of forward stages preserves the list length. -/
theorem ntt_fold_length (roots : List Int) (q : Int) (L : List Nat) (f : Nat → Nat)
    (c : List ZqElement) :
    (L.foldl (fun c s => ntt_stage roots q (f s) c) c).length = c.length := by
  induction L generalizing c with
  | nil => rfl
  | cons s ss ih => rw [List.foldl_cons, ih, ntt_stage_length]

/-- A fold of forward stages preserves well-formedness. -/
theorem ntt_fold_wf (roots : List Int) {q : Int} (L : List Nat) (f : Nat → Nat)
    (c : List ZqElement) (hq : 0 < q) (hwf : ZqWF q c) :
    ZqWF q (L.foldl (fun c s => ntt_stage roots q (f s) c) c) := by
  induction L generalizing c with
  | nil => exact hwf
  | cons s ss ih =>
      rw [List.foldl_cons]
      exact ih _ (ntt_stage_wf roots (f s) c hq (fun x hx => (hwf x hx).1))

/-- One inverse butterfly stage undoes the matching forward stage up to
pointwise doubling, provided each inverse twiddle used is the modular inverse
of the forward twiddle at the same table index. -/
theorem stage_roundtrip (roots inv_roots : List Int) {q : Int} {n m : Nat} (s : Nat)
    (c : List ZqElement)
    (hn : n = 2 ^ m) (hs : s < m) (hq : 0 < q) (hqb : q ≤ 46340)
    (hlen : c.length = n) (hwf : ZqWF q c)
    (hroots : ∀ k, k < n →
      (ZqElement.normalize (roots.getD k 0) q *
        ZqElement.normalize (inv_roots.getD k 0) q) % q = 1) :
    intt_stage inv_roots q (2 ^ (s + 1)) (ntt_stage roots q (2 ^ (s + 1)) c) =
      c.map zq_double := by
  apply List.ext_getElem
  · rw [intt_stage_length, ntt_stage_length, List.length_map]
  · intro idx h1 h2
    have hic : idx < c.length := by simpa using h2
    have hiS : idx < (ntt_stage roots q (2 ^ (s + 1)) c).length := by
      rw [ntt_stage_length]
      exact hic
    rw [← List.getD_eq_getElem _ (zq0 0) h1, ← List.getD_eq_getElem _ (zq0 0) h2,
      intt_stage_getD inv_roots q (2 ^ (s + 1)) _ idx hiS, getD_map_lt _ _ _ hic]
    have hhalf : 2 ^ (s + 1) / 2 = 2 ^ s := by
      rw [pow_succ]
      exact Nat.mul_div_cancel _ (by omega)
    have hlen2 : 2 ^ (s + 1) = 2 ^ s + 2 ^ s := by
      rw [pow_succ]
      omega
    have hpos : 0 < 2 ^ (s + 1) := Nat.two_pow_pos _
    have hin : idx < n := by
      rw [← hlen]
      exact hic
    obtain ⟨t, ht⟩ : 2 ^ (s + 1) ∣ n := by
      rw [hn]
      exact pow_dvd_pow 2 (by omega)
    have hdm := Nat.div_add_mod idx (2 ^ (s + 1))
    have hr : idx % 2 ^ (s + 1) < 2 ^ (s + 1) := Nat.mod_lt _ hpos
    have htpos : 0 < t := by
      rcases Nat.eq_zero_or_pos t with h | h
      · subst h
        rw [Nat.mul_zero] at ht
        omega
      · exact h
    have hLn : 2 ^ (s + 1) ≤ n := by
      rw [ht]
      exact Nat.le_mul_of_pos_right _ htpos
    have hdiv : idx / 2 ^ (s + 1) < t := by
      rw [Nat.div_lt_iff_lt_mul hpos, Nat.mul_comm, ← ht]
      exact hin
    have hmul1 : 2 ^ (s + 1) * (idx / 2 ^ (s + 1)) + 2 ^ (s + 1) ≤ n := by
      calc 2 ^ (s + 1) * (idx / 2 ^ (s + 1)) + 2 ^ (s + 1)
          = 2 ^ (s + 1) * (idx / 2 ^ (s + 1) + 1) := by ring
        _ ≤ 2 ^ (s + 1) * t := Nat.mul_le_mul_left _ hdiv
        _ = n := ht.symm
    rw [hhalf]
    by_cases hc : idx % 2 ^ (s + 1) < 2 ^ s
    · rw [if_pos hc]
      have hibc : idx + 2 ^ s < c.length := by omega
      have hmod2 : (idx + 2 ^ s) % 2 ^ (s + 1) = idx % 2 ^ (s + 1) + 2 ^ s := by
        have e : idx + 2 ^ s =
            (idx % 2 ^ (s + 1) + 2 ^ s) + 2 ^ (s + 1) * (idx / 2 ^ (s + 1)) := by
          omega
        rw [e, Nat.add_mul_mod_self_left, Nat.mod_eq_of_lt (by omega)]
      rw [ntt_stage_getD roots q (2 ^ (s + 1)) c idx hic,
        ntt_stage_getD roots q (2 ^ (s + 1)) c (idx + 2 ^ s) hibc, hhalf, hmod2,
        if_pos hc, if_neg (by omega)]
      simp only [Nat.add_sub_cancel]
      refine butterfly_even_cancel _ _ ?_ hq
      rw [List.getD_eq_getElem _ _ hic]
      exact (hwf _ (List.getElem_mem _)).1
    · rw [if_neg hc]
      have h2si : 2 ^ s ≤ idx := by omega
      have hisc : idx - 2 ^ s < c.length := by omega
      have hmod3 : (idx - 2 ^ s) % 2 ^ (s + 1) = idx % 2 ^ (s + 1) - 2 ^ s := by
        have e : idx - 2 ^ s =
            (idx % 2 ^ (s + 1) - 2 ^ s) + 2 ^ (s + 1) * (idx / 2 ^ (s + 1)) := by
          omega
        rw [e, Nat.add_mul_mod_self_left, Nat.mod_eq_of_lt (by omega)]
      rw [ntt_stage_getD roots q (2 ^ (s + 1)) c (idx - 2 ^ s) hisc,
        ntt_stage_getD roots q (2 ^ (s + 1)) c idx hic, hhalf, hmod3,
        if_pos (by omega), if_neg hc, Nat.sub_add_cancel h2si]
      have hK : 2 ^ s + (idx % 2 ^ (s + 1) - 2 ^ s) < n := by omega
      have hbwf : (c.getD idx (zq0 0)).q = q ∧ 0 ≤ (c.getD idx (zq0 0)).value ∧
          (c.getD idx (zq0 0)).value < q := by
        rw [List.getD_eq_getElem _ _ hic]
        exact hwf _ (List.getElem_mem _)
      have hawf : (c.getD (idx - 2 ^ s) (zq0 0)).q = q := by
        rw [List.getD_eq_getElem _ _ hisc]
        exact (hwf _ (List.getElem_mem _)).1
      have hwwf := ZqElement.new_wf
        (roots.getD (2 ^ s + (idx % 2 ^ (s + 1) - 2 ^ s)) 0) hq
      have hwiwf := ZqElement.new_wf
        (inv_roots.getD (2 ^ s + (idx % 2 ^ (s + 1) - 2 ^ s)) 0) hq
      exact butterfly_odd_cancel _ _ _ _ hawf hbwf.1 hq hqb hbwf.2.1 hbwf.2.2
        hwwf.2.1 hwwf.2.2 hwiwf.2.1 hwiwf.2.2 (hroots _ hK)

/-- An inverse stage commutes with pointwise doubling of its input. -/
theorem intt_stage_map_double (inv_roots : List Int) {q : Int} (len : Nat)
    (c : List ZqElement) (hq : 0 < q) (hqb : q ≤ 46340)
    (hwfq : ∀ x ∈ c, x.q = q) :
    intt_stage inv_roots q len (c.map zq_double) =
      (intt_stage inv_roots q len c).map zq_double := by
  apply List.ext_getElem
  · rw [intt_stage_length, List.length_map, List.length_map, intt_stage_length]
  · intro idx h1 h2
    have hic : idx < c.length := by
      simpa [intt_stage_length] using h2
    have hicm : idx < (c.map zq_double).length := by simpa using hic
    rw [← List.getD_eq_getElem _ (zq0 0) h1, ← List.getD_eq_getElem _ (zq0 0) h2,
      getD_map_lt zq_double (intt_stage inv_roots q len c) idx
        (by rwa [intt_stage_length]) (zq0 0),
      intt_stage_getD inv_roots q len (c.map zq_double) idx hicm,
      intt_stage_getD inv_roots q len c idx hic]
    have hmemq : ∀ k, k < c.length → (c.getD k (zq0 0)).q = q := by
      intro k hk
      rw [List.getD_eq_getElem _ _ hk]
      exact hwfq _ (List.getElem_mem _)
    by_cases hb : idx % len < len / 2
    · rw [if_pos hb, if_pos hb, getD_map_lt zq_double c idx hic (zq0 0)]
      by_cases hIn : idx + len / 2 < c.length
      · rw [getD_map_lt zq_double c (idx + len / 2) hIn (zq0 0)]
        exact add_double_double _ _ (hmemq idx hic) (hmemq _ hIn) hq
      · have hge : c.length ≤ idx + len / 2 := by omega
        rw [List.getD_eq_default (c.map zq_double) (zq0 0) (by simpa using hge),
          List.getD_eq_default c (zq0 0) hge]
        exact add_double_zq0 _ (hmemq idx hic) hq
    · rw [if_neg hb, if_neg hb]
      have hi2 : idx - len / 2 < c.length := by omega
      rw [getD_map_lt zq_double c idx hic (zq0 0),
        getD_map_lt zq_double c (idx - len / 2) hi2 (zq0 0)]
      have hwwf := ZqElement.new_wf (inv_roots.getD (len / 2 + (idx % len - len / 2)) 0) hq
      exact mul_sub_double _ _ _ (hmemq _ hi2) (hmemq idx hic) hq hqb
        hwwf.2.1 hwwf.2.2

/-- A fold of inverse stages commutes with pointwise doubling of its input. -/
theorem intt_fold_map_double (inv_roots : List Int) {q : Int} (L : List Nat)
    (f : Nat → Nat) (c : List ZqElement) (hq : 0 < q) (hqb : q ≤ 46340)
    (hwfq : ∀ x ∈ c, x.q = q) :
    L.foldl (fun c s => intt_stage inv_roots q (f s) c) (c.map zq_double) =
      (L.foldl (fun c s => intt_stage inv_roots q (f s) c) c).map zq_double := by
  induction L generalizing c with
  | nil => rfl
  | cons s ss ih =>
      simp only [List.foldl_cons]
      rw [intt_stage_map_double inv_roots (f s) c hq hqb hwfq]
      exact ih _ (fun x hx => (intt_stage_wf inv_roots (f s) c hq hwfq x hx).1)

/-- Slot idx of the m-fold doubling: the original value scaled by 2^m. -/
theorem double_iter_getD {q : Int} (M : Nat) (c : List ZqElement) (hq : 0 < q)
    (hwf : ZqWF q c) (idx : Nat) (h : idx < c.length) :
    ((double_iter M c).getD idx (zq0 0)).value =
      (2 ^ M * (c.getD idx (zq0 0)).value) % q ∧
    ((double_iter M c).getD idx (zq0 0)).q = q := by
  have hwfe : (c.getD idx (zq0 0)).q = q ∧ 0 ≤ (c.getD idx (zq0 0)).value ∧
      (c.getD idx (zq0 0)).value < q := by
    rw [List.getD_eq_getElem _ _ h]
    exact hwf _ (List.getElem_mem _)
  induction M with
  | zero =>
      constructor
      · show (c.getD idx (zq0 0)).value = _
        rw [pow_zero, one_mul, Int.emod_eq_of_lt hwfe.2.1 hwfe.2.2]
      · exact hwfe.1
  | succ M ih =>
      have hlen : idx < (double_iter M c).length := by
        rw [double_iter_length]
        exact h
      simp only [double_iter]
      rw [getD_map_lt _ _ _ hlen]
      constructor
      · show (ZqElement.add _ _).value = _
        rw [ZqElement.add_value _ _ (by rw [ih.2]; exact hq), ih.2, ih.1,
          ← Int.add_emod]
        congr 1
        ring
      · show (ZqElement.add _ _).q = _
        rw [ZqElement.add_q, ih.2]

/-- Slot idx of the bit-reversal permutation. -/
theorem bit_reverse_permute_getD (c : List ZqElement) (m idx : Nat)
    (h : idx < c.length) :
    (bit_reverse_permute c m).getD idx (zq0 0) =
      c.getD (bit_reverse idx m) (zq0 0) := by
  rw [List.getD_eq_getElem _ _ (by simpa [bit_reverse_permute_length] using h)]
  simp [bit_reverse_permute]

/-- The bit-reversal permutation commutes with a pointwise map. -/
theorem bit_reverse_permute_map {m : Nat} (f : ZqElement → ZqElement)
    (c : List ZqElement) (hlen : c.length = 2 ^ m) :
    bit_reverse_permute (c.map f) m = (bit_reverse_permute c m).map f := by
  apply List.ext_getElem
  · simp [bit_reverse_permute]
  · intro idx h1 h2
    have hidx : idx < c.length := by
      simpa [bit_reverse_permute_length] using h2
    have hbr : bit_reverse idx m < c.length := by
      rw [hlen]
      exact bit_reverse_lt idx m
    rw [← List.getD_eq_getElem _ (zq0 0) h1, ← List.getD_eq_getElem _ (zq0 0) h2,
      bit_reverse_permute_getD _ _ _ (by simpa using hidx),
      getD_map_lt _ _ _ hbr,
      getD_map_lt _ _ _ (by rwa [bit_reverse_permute_length]),
      bit_reverse_permute_getD _ _ _ hidx]

/-- The bit-reversal permutation commutes with iterated doubling. -/
theorem bit_reverse_permute_double_iter {m : Nat} (M : Nat) (c : List ZqElement)
    (hlen : c.length = 2 ^ m) :
    bit_reverse_permute (double_iter M c) m =
      double_iter M (bit_reverse_permute c m) := by
  induction M with
  | zero => rfl
  | succ M ih =>
      simp only [double_iter]
      rw [bit_reverse_permute_map _ _ (by rw [double_iter_length]; exact hlen), ih]

/-- The bit-reversal permutation is an involution on power-of-two lengths. -/
theorem bit_reverse_permute_involutive {m : Nat} (c : List ZqElement)
    (hlen : c.length = 2 ^ m) :
    bit_reverse_permute (bit_reverse_permute c m) m = c := by
  apply List.ext_getElem
  · rw [bit_reverse_permute_length, bit_reverse_permute_length]
  · intro idx h1 h2
    have hi2 : idx < 2 ^ m := by rwa [hlen] at h2
    have hbr : bit_reverse idx m < c.length := by
      rw [hlen]
      exact bit_reverse_lt idx m
    rw [← List.getD_eq_getElem _ (zq0 0) h1, ← List.getD_eq_getElem _ (zq0 0) h2,
      bit_reverse_permute_getD _ _ _ (by rwa [bit_reverse_permute_length]),
      bit_reverse_permute_getD _ _ _ hbr, bit_reverse_involutive hi2]

/-- Scaling the m-fold doubling by the inverse of 2^m restores the list. -/
theorem double_iter_scale {q ninv : Int} {m : Nat} (c : List ZqElement)
    (hq : 0 < q) (hqb : q ≤ 46340) (hwf : ZqWF q c)
    (hninv : (2 ^ m * ninv) % q = 1) :
    (double_iter m c).map (fun x => ZqElement.mul x (ZqElement.new ninv q)) = c := by
  apply List.ext_getElem
  · rw [List.length_map, double_iter_length]
  · intro idx h1 h2
    have hic : idx < c.length := h2
    have hid : idx < (double_iter m c).length := by rwa [double_iter_length]
    rw [← List.getD_eq_getElem _ (zq0 0) h1, ← List.getD_eq_getElem _ (zq0 0) h2,
      getD_map_lt _ _ _ hid]
    have hdi := double_iter_getD m c hq hwf idx hic
    have hwfe : (c.getD idx (zq0 0)).q = q ∧ 0 ≤ (c.getD idx (zq0 0)).value ∧
        (c.getD idx (zq0 0)).value < q := by
      rw [List.getD_eq_getElem _ _ hic]
      exact hwf _ (List.getElem_mem _)
    have hni := ZqElement.new_wf ninv hq
    apply ZqElement.ext_vq
    · rw [ZqElement.mul_value _ _ (by rw [hdi.2]; exact hq), hdi.2, hdi.1,
        wrap32_mul_small hqb (Int.emod_nonneg _ (ne_of_gt hq))
          (Int.emod_lt_of_pos _ hq) hni.2.1 hni.2.2,
        emod_mul_left_emod, ZqElement.new_value _ hq, emod_mul_right_emod,
        show 2 ^ m * (c.getD idx (zq0 0)).value * ninv
          = (c.getD idx (zq0 0)).value * (2 ^ m * ninv) from by ring,
        ← emod_mul_right_emod, hninv, mul_one,
        Int.emod_eq_of_lt hwfe.2.1 hwfe.2.2]
    · rw [ZqElement.mul_q, hdi.2, hwfe.1]

/-- The whole cascade: m inverse stages after m forward stages double every
slot m times. -/
theorem fold_roundtrip (roots inv_roots : List Int) {q : Int} {n m : Nat}
    (hn : n = 2 ^ m) (hq : 0 < q) (hqb : q ≤ 46340)
    (hroots : ∀ k, k < n →
      (ZqElement.normalize (roots.getD k 0) q *
        ZqElement.normalize (inv_roots.getD k 0) q) % q = 1) :
    ∀ M, M ≤ m → ∀ c : List ZqElement, c.length = n → ZqWF q c →
      (List.range M).foldl (fun c s => intt_stage inv_roots q (2 ^ (M - s)) c)
        ((List.range M).foldl (fun c s => ntt_stage roots q (2 ^ (s + 1)) c) c) =
      double_iter M c := by
  intro M
  induction M with
  | zero =>
      intro _ c _ _
      rfl
  | succ M ih =>
      intro hM c hlen hwf
      obtain ⟨F, hF⟩ : ∃ F, F = (List.range (M + 1)).foldl
          (fun c s => ntt_stage roots q (2 ^ (s + 1)) c) c := ⟨_, rfl⟩
      rw [← hF, List.range_succ_eq_map, List.foldl_cons, List.foldl_map]
      simp only [Nat.succ_eq_add_one, Nat.add_sub_add_right, Nat.sub_zero]
      rw [hF, List.range_succ, List.foldl_append, List.foldl_cons, List.foldl_nil]
      rw [stage_roundtrip roots inv_roots M _ hn (by omega) hq hqb
        ((ntt_fold_length roots q (List.range M) (fun s => 2 ^ (s + 1)) c).trans hlen)
        (ntt_fold_wf roots (List.range M) (fun s => 2 ^ (s + 1)) c hq hwf) hroots]
      rw [intt_fold_map_double inv_roots (List.range M) (fun s => 2 ^ (M - s)) _ hq hqb
        (fun x hx => (ntt_fold_wf roots (List.range M) (fun s => 2 ^ (s + 1)) c hq hwf
          x hx).1)]
      rw [ih (by omega) c hlen hwf]
      rfl

/-- The complete inverse butterfly undoes the complete forward butterfly:
the two bit-reversal permutations cancel, the stage cascade contributes a
factor 2^m, and the final n⁻¹ scaling removes it. -/
theorem butterfly_roundtrip (params : NTTParams) (c : List ZqElement) {m : Nat}
    (hn : params.n = 2 ^ m) (hq : 0 < params.q) (hqb : params.q ≤ 46340)
    (hlen : c.length = params.n) (hwf : ZqWF params.q c)
    (hroots : ∀ k, k < params.n →
      (ZqElement.normalize (params.roots_of_unity.getD k 0) params.q *
        ZqElement.normalize (params.inv_roots_of_unity.getD k 0) params.q) %
        params.q = 1)
    (hninv : (2 ^ m * params.n_inv) % params.q = 1) :
    butterfly_intt (butterfly_ntt c params) params = c := by
  have hlen2 : c.length = 2 ^ m := by rw [hlen, hn]
  simp only [butterfly_ntt, butterfly_intt, hn, nat_log2_pow]
  rw [fold_roundtrip params.roots_of_unity params.inv_roots_of_unity hn hq hqb hroots
    m le_rfl (bit_reverse_permute c m)
    (by rw [bit_reverse_permute_length, hlen]) (bit_reverse_permute_wf c hlen2 hwf)]
  rw [bit_reverse_permute_double_iter m (bit_reverse_permute c m)
    (by rw [bit_reverse_permute_length]; exact hlen2)]
  rw [bit_reverse_permute_involutive c hlen2]
  exact double_iter_scale c hq hqb hwf hninv

/-- C4: for every polynomial p in standard form whose length and modulus match
NTT parameters P with a power-of-two n, pairwise-inverse twiddle tables and a
valid n⁻¹ mod q — with q small enough (q ≤ 46340) that the i64→i32 cast inside
`Mul for ZqElement` is lossless on products of reduced representatives, as it
is for every modulus the library builds NTT parameters for — the round trip
ntt_inverse(ntt_forward(p, P), P) returns p itself, coefficient by coefficient,
with the is_ntt_form tag restored to false. -/
theorem C4_ntt_roundtrip (p : Polynomial) (params : NTTParams) (m : Nat)
    (hn : params.n = 2 ^ m) (hq : 0 < params.q) (hqb : params.q ≤ 46340)
    (hmi : p.modulus_info = ⟨params.n, params.q, false⟩)
    (hlen : p.coeffs.length = params.n) (hwf : ZqWF params.q p.coeffs)
    (hroots : ∀ k, k < params.n →
      (ZqElement.normalize (params.roots_of_unity.getD k 0) params.q *
        ZqElement.normalize (params.inv_roots_of_unity.getD k 0) params.q) %
        params.q = 1)
    (hninv : (2 ^ m * params.n_inv) % params.q = 1) :
    ntt_inverse (ntt_forward p params) params = p := by
  show (⟨butterfly_intt (butterfly_ntt p.coeffs params) params,
    ⟨params.n, params.q, false⟩⟩ : Polynomial) = p
  rw [butterfly_roundtrip params p.coeffs hn hq hqb hlen hwf hroots hninv, ← hmi]

set_option maxRecDepth 10000 in
/-- Witness for C4 at the parameters of the source's own round-trip unit test
(q = 97, n = 8, ψ = 13) on a concrete standard-form polynomial. -/
theorem C4_witness :
    ntt_inverse
      (ntt_forward
        ⟨[ZqElement.new 1 97, ZqElement.new 2 97, ZqElement.new 3 97,
          ZqElement.new 4 97, ZqElement.new 5 97, ZqElement.new 6 97,
          ZqElement.new 7 97, ZqElement.new 90 97], ⟨8, 97, false⟩⟩
        (NTTParams.new 97 8 13))
      (NTTParams.new 97 8 13) =
    ⟨[ZqElement.new 1 97, ZqElement.new 2 97, ZqElement.new 3 97,
      ZqElement.new 4 97, ZqElement.new 5 97, ZqElement.new 6 97,
      ZqElement.new 7 97, ZqElement.new 90 97], ⟨8, 97, false⟩⟩ :=
  C4_ntt_roundtrip _ (NTTParams.new 97 8 13) 3 (by decide) (by decide) (by decide)
    rfl (by decide) (by unfold ZqWF; decide) (by decide) (by decide)

/-- `Polynomial::from_bytes` returns the zero polynomial whenever it receives
fewer than degree · ceil(coeff_bits/8) bytes. -/
theorem from_bytes_short (bytes : List Nat) (mi : PolyModulusInfo) (cb : Nat)
    (h : bytes.length < mi.degree * ((cb + 7) / 8)) :
    Polynomial.from_bytes bytes mi cb = Polynomial.zero mi := by
  simp only [Polynomial.from_bytes]
  rw [if_pos h]

/-- A flat map of one constant block over a constant list is one big constant
block. -/
theorem flatMap_replicate_const {α : Type} (n k : Nat) (c : α) (f : α → List Nat)
    (a : Nat) (h : f c = List.replicate k a) :
    (List.replicate n c).flatMap f = List.replicate (n * k) a := by
  induction n with
  | zero => simp
  | succ n ih =>
      rw [List.replicate_succ, List.flatMap_cons, h, ih,
        show (n + 1) * k = k + n * k from by ring, List.replicate_add]

/-- The zero polynomial written as an explicit structure. -/
theorem zero_eq_mk (mi : PolyModulusInfo) :
    Polynomial.zero mi =
      ⟨List.replicate mi.degree (ZqElement.new 0 mi.q), mi⟩ := by
  simp [Polynomial.zero, Polynomial.new]

/-- Packing a polynomial whose coefficients are n copies of one element. -/
theorem to_bytes_replicate (n cb : Nat) (c : ZqElement) (mi : PolyModulusInfo)
    (k a : Nat)
    (h : (List.range ((cb + 7) / 8)).map (fun j => (c.value.toNat >>> (8 * j)) &&& 255)
      = List.replicate k a) :
    (Polynomial.mk (List.replicate n c) mi).to_bytes cb = List.replicate (n * k) a := by
  simp only [Polynomial.to_bytes]
  exact flatMap_replicate_const n k c _ a h

/-- The packed bytes of the zero u-component polynomial. -/
theorem zero_u_to_bytes :
    (Polynomial.zero ⟨Kyber.N, 2 ^ Kyber.DU, false⟩).to_bytes Kyber.DU =
      List.replicate 512 0 := by
  rw [zero_eq_mk]
  exact (to_bytes_replicate _ _ _ _ 2 0 (by decide)).trans (by norm_num [Kyber.N])

/-- The packed bytes of the zero v-component polynomial. -/
theorem zero_v_to_bytes :
    (Polynomial.zero ⟨Kyber.N, 2 ^ Kyber.DV, false⟩).to_bytes Kyber.DV =
      List.replicate 256 0 := by
  rw [zero_eq_mk]
  exact (to_bytes_replicate _ _ _ _ 1 0 (by decide)).trans (by norm_num [Kyber.N])

/-- The packed bytes of the all-8 v-component polynomial. -/
theorem v8_to_bytes :
    (Polynomial.new (List.replicate 256 (ZqElement.new 8 16))
      ⟨Kyber.N, 2 ^ Kyber.DV, false⟩).to_bytes Kyber.DV = List.replicate 256 8 := by
  have he : Polynomial.new (List.replicate 256 (ZqElement.new 8 16))
      ⟨Kyber.N, 2 ^ Kyber.DV, false⟩ =
      ⟨List.replicate 256 (ZqElement.new 8 16), ⟨Kyber.N, 2 ^ Kyber.DV, false⟩⟩ := by
    simp only [Polynomial.new, List.length_replicate]
    rw [show Kyber.N - 256 = 0 from by decide, List.replicate_zero, List.append_nil]
  rw [he]
  exact (to_bytes_replicate _ _ _ _ 1 8 (by decide)).trans (by norm_num)

/-- Deserializing ANY byte string as a Kyber512 ciphertext and serializing the
result yields the all-zero 1280-byte string: `ciphertext_from_bytes` slices
n·d/8 bytes per polynomial (bit-packed sizes: 320 for u, 128 for v) while
`to_bytes` emits n·ceil(d/8) (byte-aligned: 512 and 256), so every
`Polynomial::from_bytes` call sees a too-short slice and silently returns the
zero polynomial. -/
theorem ciphertext_reserialize_zero (bytes : List Nat) :
    Kyber.ciphertext_to_bytes
      (Kyber.ciphertext_from_bytes bytes SecurityLevel.Kyber512) =
      List.replicate 1280 0 := by
  have hzero : Kyber.ciphertext_to_bytes
      ⟨⟨[Polynomial.zero ⟨Kyber.N, 2 ^ Kyber.DU, false⟩,
         Polynomial.zero ⟨Kyber.N, 2 ^ Kyber.DU, false⟩],
        ⟨Kyber.N, 2 ^ Kyber.DU, false⟩⟩,
       Polynomial.zero ⟨Kyber.N, 2 ^ Kyber.DV, false⟩⟩ = List.replicate 1280 0 := by
    simp only [Kyber.ciphertext_to_bytes]
    rw [List.flatMap_cons, List.flatMap_cons, List.flatMap_nil, zero_u_to_bytes,
      zero_v_to_bytes, List.append_nil, ← List.replicate_add, ← List.replicate_add]
  simp only [Kyber.ciphertext_from_bytes]
  by_cases h : bytes.length < SecurityLevel.Kyber512.k * (Kyber.N * Kyber.DU / 8)
      + Kyber.N * Kyber.DV / 8
  · rw [if_pos h]
    exact hzero
  · rw [if_neg h]
    have hnum : Kyber.N * Kyber.DU / 8 < Kyber.N * ((Kyber.DU + 7) / 8) := by decide
    have hnumv : Kyber.N * Kyber.DV / 8 < Kyber.N * ((Kyber.DV + 7) / 8) := by decide
    have hu : ∀ i : Nat, Polynomial.from_bytes
        ((bytes.drop (i * (Kyber.N * Kyber.DU / 8))).take (Kyber.N * Kyber.DU / 8))
        ⟨Kyber.N, 2 ^ Kyber.DU, false⟩ Kyber.DU =
        Polynomial.zero ⟨Kyber.N, 2 ^ Kyber.DU, false⟩ := by
      intro i
      apply from_bytes_short
      have hlen := List.length_take (Kyber.N * Kyber.DU / 8)
        (bytes.drop (i * (Kyber.N * Kyber.DU / 8)))
      simp only at hlen ⊢
      omega
    have hv : Polynomial.from_bytes
        ((bytes.drop (SecurityLevel.Kyber512.k * (Kyber.N * Kyber.DU / 8))).take
          (Kyber.N * Kyber.DV / 8))
        ⟨Kyber.N, 2 ^ Kyber.DV, false⟩ Kyber.DV =
        Polynomial.zero ⟨Kyber.N, 2 ^ Kyber.DV, false⟩ := by
      apply from_bytes_short
      have hlen := List.length_take (Kyber.N * Kyber.DV / 8)
        (bytes.drop (SecurityLevel.Kyber512.k * (Kyber.N * Kyber.DU / 8)))
      simp only at hlen ⊢
      omega
    rw [show List.range SecurityLevel.Kyber512.k = [0, 1] from rfl]
    simp only [List.map_cons, List.map_nil]
    rw [hu 0, hu 1, hv]
    exact hzero

set_option maxRecDepth 10000 in
/-- C2: the specification states that serialize ∘ deserialize ∘ serialize is
the identity on serializations for pk, sk, KEM-sk and ct. For ciphertexts the
deserializer's per-polynomial slice sizes (n·d/8, bit-packed) are smaller than
the serializer's per-polynomial output sizes (n·ceil(d/8), byte-aligned), so
every deserialized ciphertext consists of zero polynomials and every
re-serialization is the all-zero string. Exhibited on a well-formed Kyber512
ciphertext of exactly the shape `encrypt` outputs (u: two 256-coefficient
polynomials with modulus descriptor 2^10, v: one with 2^4), with v the
encoding of the all-ones message under zero noise. -/
theorem C2_ciphertext_reserialization_differs :
    (∀ bytes : List Nat,
      Kyber.ciphertext_to_bytes
        (Kyber.ciphertext_from_bytes bytes SecurityLevel.Kyber512) =
        List.replicate 1280 0)
    ∧ Kyber.ciphertext_to_bytes
        (Kyber.ciphertext_from_bytes
          (Kyber.ciphertext_to_bytes
            ⟨⟨[Polynomial.zero ⟨Kyber.N, 2 ^ Kyber.DU, false⟩,
               Polynomial.zero ⟨Kyber.N, 2 ^ Kyber.DU, false⟩],
              ⟨Kyber.N, 2 ^ Kyber.DU, false⟩⟩,
             Polynomial.new (List.replicate 256 (ZqElement.new 8 16))
               ⟨Kyber.N, 2 ^ Kyber.DV, false⟩⟩)
          SecurityLevel.Kyber512)
        ≠ Kyber.ciphertext_to_bytes
            ⟨⟨[Polynomial.zero ⟨Kyber.N, 2 ^ Kyber.DU, false⟩,
               Polynomial.zero ⟨Kyber.N, 2 ^ Kyber.DU, false⟩],
              ⟨Kyber.N, 2 ^ Kyber.DU, false⟩⟩,
             Polynomial.new (List.replicate 256 (ZqElement.new 8 16))
               ⟨Kyber.N, 2 ^ Kyber.DV, false⟩⟩ := by
  refine ⟨ciphertext_reserialize_zero, ?_⟩
  rw [ciphertext_reserialize_zero]
  have hser : Kyber.ciphertext_to_bytes
      ⟨⟨[Polynomial.zero ⟨Kyber.N, 2 ^ Kyber.DU, false⟩,
         Polynomial.zero ⟨Kyber.N, 2 ^ Kyber.DU, false⟩],
        ⟨Kyber.N, 2 ^ Kyber.DU, false⟩⟩,
       Polynomial.new (List.replicate 256 (ZqElement.new 8 16))
         ⟨Kyber.N, 2 ^ Kyber.DV, false⟩⟩ =
      List.replicate 1024 0 ++ List.replicate 256 8 := by
    simp only [Kyber.ciphertext_to_bytes]
    rw [List.flatMap_cons, List.flatMap_cons, List.flatMap_nil, zero_u_to_bytes,
      v8_to_bytes, List.append_nil, ← List.replicate_add]
  rw [hser]
  intro heq
  have e1 : (List.replicate 1280 (0 : Nat)).getD 1024 7 = 0 := by
    rw [List.getD_eq_getElem _ _ (by simp), List.getElem_replicate]
  rw [heq, List.getD_eq_getElem _ _ (by simp),
    List.getElem_append_right (by simp), List.getElem_replicate] at e1
  exact absurd e1 (by omega)

/-- A bitwise OR of naturals is zero exactly when both operands are. -/
theorem nat_or_eq_zero {a b : Nat} : a ||| b = 0 ↔ a = 0 ∧ b = 0 := by
  constructor
  · intro h
    have hb : ∀ i, (a ||| b).testBit i = false := by
      intro i
      rw [h, Nat.zero_testBit]
    constructor
    · apply Nat.eq_of_testBit_eq
      intro i
      have h2 := hb i
      rw [Nat.testBit_or] at h2
      simp only [Nat.zero_testBit]
      exact (Bool.or_eq_false_iff.mp h2).1
    · apply Nat.eq_of_testBit_eq
      intro i
      have h2 := hb i
      rw [Nat.testBit_or] at h2
      simp only [Nat.zero_testBit]
      exact (Bool.or_eq_false_iff.mp h2).2
  · rintro ⟨rfl, rfl⟩
    rfl

/-- A left fold of bitwise ORs is zero exactly when everything ORed is. -/
theorem foldl_or_eq_zero (l : List Nat) (acc : Nat) :
    l.foldl (fun r x => r ||| x) acc = 0 ↔ acc = 0 ∧ ∀ x ∈ l, x = 0 := by
  induction l generalizing acc with
  | nil => simp
  | cons x xs ih =>
      rw [List.foldl_cons, ih, List.forall_mem_cons, nat_or_eq_zero]
      tauto

/-- All pairwise XORs of two same-length lists vanish exactly when the lists
are equal. -/
theorem zipWith_xor_eq (a b : List Nat) (hl : a.length = b.length) :
    (∀ x ∈ List.zipWith (fun x y => x ^^^ y) a b, x = 0) ↔ a = b := by
  induction a generalizing b with
  | nil =>
      cases b with
      | nil => simp
      | cons y ys => simp at hl
  | cons x xs ih =>
      cases b with
      | nil => simp at hl
      | cons y ys =>
          simp only [List.zipWith_cons_cons, List.forall_mem_cons, List.cons.injEq]
          rw [ih ys (by simpa using hl), Nat.xor_eq_zero]

/-- `constant_time_compare` accepts exactly the equal byte strings. -/
theorem constant_time_compare_eq (a b : List Nat) :
    Kyber.constant_time_compare a b = true ↔ a = b := by
  unfold Kyber.constant_time_compare
  by_cases hl : a.length = b.length
  · rw [if_neg (fun hne => hne hl), beq_iff_eq, foldl_or_eq_zero]
    constructor
    · intro h
      exact (zipWith_xor_eq a b hl).mp h.2
    · rintro rfl
      refine ⟨rfl, ?_⟩
      exact (zipWith_xor_eq a a rfl).mpr rfl
  · rw [if_pos hl]
    constructor
    · intro h
      exact absurd h (by simp)
    · intro h
      exact absurd (congrArg List.length h) hl

/-- C1: `decaps` realizes the Fujisaki–Okamoto decapsulation the claim
describes: m' is the CPA decryption of ct, (K', r') = G(m', h) with h the
stored public-key hash, ct' the re-encryption of m' under the stored public
key with coins r', and the result is K' exactly when the serialized bytes of
ct equal those of ct' (the constant-time comparison accepts exactly equal
byte strings), else SHA3-256(z ∥ ct bytes). -/
theorem C1_decaps_matches_fo_transform (H : HashPrims) (sk : Kyber.KemSecretKey)
    (ct : Kyber.Ciphertext) :
    Kyber.decaps H sk ct = decaps_spec H sk ct := by
  simp only [Kyber.decaps, decaps_spec]
  by_cases h : Kyber.ciphertext_to_bytes ct =
      Kyber.ciphertext_to_bytes (Kyber.encrypt H sk.pk (Kyber.decrypt sk.sk ct)
        ((hash_g H (Kyber.decrypt sk.sk ct) sk.h_pk).2.take 32))
  · rw [if_pos ((constant_time_compare_eq _ _).mpr h), if_pos h]
    simp [hash_g, List.take_take]
  · rw [if_neg (fun hcc => h ((constant_time_compare_eq _ _).mp hcc)), if_neg h]

/-- C10: decapsulation draws no fresh randomness: threaded through the
ambient entropy source it returns the source unchanged, and its shared secret
is the same for every entropy state — a deterministic function of the secret
key and the ciphertext (all re-encryption noise being PRF-derived from the
coins r'). -/
theorem C10_decaps_reads_no_entropy (H : HashPrims) (rng rng' : Kyber.EntropySource)
    (sk : Kyber.KemSecretKey) (ct : Kyber.Ciphertext) :
    Kyber.decaps_with_entropy H rng sk ct = (Kyber.decaps H sk ct, rng)
    ∧ (Kyber.decaps_with_entropy H rng sk ct).1 =
      (Kyber.decaps_with_entropy H rng' sk ct).1 :=
  ⟨rfl, rfl⟩

end LatticeCrypto
